import Mathlib

/-! Verification development for the `neat` runtime substrate.

Shallow embedding of `src/src/runtime.c` (polynomial hash, FNV hash, hexadecimal
export, reference counting) and `src/lib/symbol.c` (linkage table), followed by theorems
about the embedding.

Conventions of the embedding

* A C `long long` is an `Int` holding the signed value; every arithmetic
  operation of the source is followed by `wrap64`, the two's complement
  wraparound to 64 bits.  The definitions named `_strict`, and
  `poly_hash_whole_string`, instead return `none` when a signed operation
  overflows, which C leaves undefined.
* A byte of a `struct String` is a `Fin 256`; the value the code reads from it
  through the `char` pointer is `charVal sgn b`, where `sgn` says whether plain
  `char` is signed on the platform.
* Pointers are natural numbers (addresses), `0` is `NULL`.
-/

set_option maxRecDepth 100000

namespace Neat

/-! ## Machine integers -/

/-- Two's complement wraparound of an integer to the range of a C `long long`. -/
def wrap64 (x : Int) : Int := (x + 2 ^ 63) % 2 ^ 64 - 2 ^ 63

/-- Range of a C `long long`. -/
def IsI64 (x : Int) : Prop := -2 ^ 63 ≤ x ∧ x < 2 ^ 63

instance (x : Int) : Decidable (IsI64 x) :=
  inferInstanceAs (Decidable (-2 ^ 63 ≤ x ∧ x < 2 ^ 63))

/-- One byte of memory. -/
abbrev CByte := Fin 256

/-- Value of the C expression `s.ptr[k]` (type `char`, promoted to an integer) when the
addressed byte is `b`; `sgn = true` on platforms where plain `char` is signed. -/
def charVal (sgn : Bool) (b : CByte) : Int :=
  if sgn && decide (128 ≤ b.val) then (b.val : Int) - 256 else (b.val : Int)

/-! ## Polynomial hash (`runtime.c`, lines 200-276) -/

/-- `#define PRIME 1099511628211` -/
def PRIME : Int := 1099511628211

/-- `typedef struct { long long add, mult; } PolyHashState;` -/
structure PolyHashState where
  add : Int
  mult : Int
  deriving DecidableEq, Repr

/-- `poly_init`: the freshly allocated state; the unsigned constant is converted to
`long long` on assignment. -/
def poly_init : PolyHashState :=
  { add := wrap64 14695981039346656037, mult := 1 }

/-- `poly_apply_hash(left, right)`: returns the new contents of `*left`. -/
def poly_apply_hash (left right : PolyHashState) : PolyHashState :=
  { add := wrap64 (wrap64 (left.add * right.mult) + right.add)
    mult := wrap64 (left.mult * right.mult) }

/-- Body of the `for` loop of `poly_hash_string` at index `i`. -/
def poly_hash_string_step (sgn : Bool) (s : List CByte) (result : PolyHashState) (i : Nat) :
    PolyHashState :=
  { add := wrap64 (result.add +
      wrap64 (charVal sgn (s.getD (s.length - 1 - i) 0) * result.mult))
    mult := wrap64 (result.mult * PRIME) }

/-- `poly_hash_string(s)`: the loop `for (size_t i = 0; i < s.length; i++)` started from
`{ .add = 0, .mult = 1 }`. -/
def poly_hash_string (sgn : Bool) (s : List CByte) : PolyHashState :=
  (List.range s.length).foldl (poly_hash_string_step sgn s) { add := 0, mult := 1 }

/-- `poly_add_string(state, s)`: returns the new contents of `*state`. -/
def poly_add_string (sgn : Bool) (state : PolyHashState) (s : List CByte) : PolyHashState :=
  poly_apply_hash state (poly_hash_string sgn s)

/-- Body of the `for` loop of `poly_hash_long` at index `i`:
`(value >> (8 * i)) & 0xff` is bits `8i .. 8i+7` of `value`. -/
def poly_hash_long_step (value : Int) (result : PolyHashState) (i : Nat) : PolyHashState :=
  { add := wrap64 (result.add + wrap64 ((value / 2 ^ (8 * i) % 256) * result.mult))
    mult := wrap64 (result.mult * PRIME) }

/-- `poly_hash_long(value)`: the loop runs `sizeof(long long int) = 8` times. -/
def poly_hash_long (value : Int) : PolyHashState :=
  (List.range 8).foldl (poly_hash_long_step value) { add := 0, mult := 1 }

/-- `poly_add_long(state, value)`: returns the new contents of `*state`. -/
def poly_add_long (state : PolyHashState) (value : Int) : PolyHashState :=
  poly_apply_hash state (poly_hash_long value)

/-! ## The polynomial hash under the overflow rule of C

An operation on `long long` whose exact result does not fit has undefined behaviour in C.
The definitions above take the wraparound reading of the arithmetic (modulo `2^64`).  The
definitions of this section follow the same source lines and return `none` as soon as a
signed operation overflows: then the source does not determine a result. -/

/-- The result of a signed `long long` operation whose exact value is `x`: the value when
it fits, `none` (undefined behaviour) when it overflows. -/
def checked64 (x : Int) : Option Int := if IsI64 x then some x else none

/-- `poly_apply_hash(left, right)`, overflow undefined: the new contents of `*left`. -/
def poly_apply_hash_strict (left right : PolyHashState) : Option PolyHashState :=
  (checked64 (left.add * right.mult)).bind fun prod =>
  (checked64 (prod + right.add)).bind fun add =>
  (checked64 (left.mult * right.mult)).bind fun mult =>
  some { add := add, mult := mult }

/-- Body of the `for` loop of `poly_hash_string` at index `i`, overflow undefined. -/
def poly_hash_string_strict_step (sgn : Bool) (s : List CByte)
    (result : Option PolyHashState) (i : Nat) : Option PolyHashState :=
  result.bind fun result =>
  (checked64 (charVal sgn (s.getD (s.length - 1 - i) 0) * result.mult)).bind fun prod =>
  (checked64 (result.add + prod)).bind fun add =>
  (checked64 (result.mult * PRIME)).bind fun mult =>
  some { add := add, mult := mult }

/-- `poly_hash_string(s)`, overflow undefined. -/
def poly_hash_string_strict (sgn : Bool) (s : List CByte) : Option PolyHashState :=
  (List.range s.length).foldl (poly_hash_string_strict_step sgn s) (some { add := 0, mult := 1 })

/-- `poly_add_string(state, s)`, overflow undefined: the new contents of `*state`. -/
def poly_add_string_strict (sgn : Bool) (state : PolyHashState) (s : List CByte) :
    Option PolyHashState :=
  (poly_hash_string_strict sgn s).bind fun right => poly_apply_hash_strict state right

/-- `poly_hash_whole_string(s)`: the returned `state.add`, or `none` when a signed
operation of the call overflows.  The local state is initialised with the unsigned
constant converted to `long long` and `mult = 1`. -/
def poly_hash_whole_string (sgn : Bool) (s : List CByte) : Option Int :=
  (poly_add_string_strict sgn { add := wrap64 14695981039346656037, mult := 1 } s).map
    (fun state => state.add)

/-! ## Linkage table (`symbol.c`)

The header `symbol.h` is not among the sources, so the record types are reconstructed
from the way `symbol.c` uses them.  A name is a C string, modelled as a `String`
(`strcmp(a, b) == 0` is equality); a pointer to an entry of the table is the index of the
entry.  The trace output of `declare` is not modelled. -/

/-- Modelled from the spec: the resolution kinds of `symbol.h` (absent from the sources),
`Unresolved`, `NativeBound` and `CodeBound`, under the names `symbol.c` uses. -/
inductive SymbolKind where
  | UNRESOLVED_SYMBOL
  | C_SYMBOL
  | BC_SYMBOL
  deriving DecidableEq, Repr

/-- Modelled from the spec: the `Symbol` record of `symbol.h` (absent from the sources):
the name, the address at which the bytes of the name are stored, and `args_len`. -/
structure Symbol where
  name : String
  name_addr : Nat
  args_len : Int
  deriving DecidableEq, Repr

/-- Modelled from the spec: the `SymbolEntry` record of `symbol.h` (absent from the
sources) with the members `symbol.c` assigns: `kind`, `symbol`, `callptr`, `arg_types`
and `section` (here `section_`). -/
structure SymbolEntry where
  kind : SymbolKind
  symbol : Symbol
  callptr : Nat
  arg_types : Nat
  section_ : Nat
  deriving DecidableEq, Repr

/-- Modelled from the spec: `Environment` of `symbol.h` (absent from the sources); the
pair `entries.ptr`, `entries.length` is a list. -/
structure Environment where
  entries : List SymbolEntry
  deriving DecidableEq, Repr

/-- Modelled from the spec: the macro `WORD_ALIGN` of `symbol.h` (absent from the
sources), "rounded up to machine-word alignment", for a word of 8 bytes. -/
def WORD_ALIGN (x : Nat) : Nat := (x + 7) / 8 * 8

/-- `strcmp(environment->entries.ptr[i].symbol->name, name) == 0`. -/
def nameAt (environment : Environment) (i : Nat) (name : String) : Bool :=
  match environment.entries[i]? with
  | some entry => decide (entry.symbol.name = name)
  | none => false

/-- Assignment to members of the entry that `&environment->entries.ptr[i]` points to. -/
def updateEntry (environment : Environment) (i : Nat) (f : SymbolEntry → SymbolEntry) :
    Environment :=
  match environment.entries[i]? with
  | some entry => { entries := environment.entries.set i (f entry) }
  | none => environment

/-- `declare(environment, symbol)`: returns the `int` result and the environment after
the call; `realloc` is taken to succeed. -/
def declare (environment : Environment) (symbol : Symbol) : Nat × Environment :=
  let entries := environment.entries ++
    [{ kind := .UNRESOLVED_SYMBOL, symbol := symbol, callptr := 0, arg_types := 0,
       section_ := 0 }]
  (entries.length - 1, { entries := entries })

/-- `find_symbol(environment, name)`: the index of the entry the returned pointer
addresses, with the environment after the call; `none` is the fatal exit
(`fprintf`, `assert(false)`, `abort()`). -/
def find_symbol (environment : Environment) (name : String) : Option (Nat × Environment) :=
  match (List.range environment.entries.length).find? (fun i => nameAt environment i name) with
  | some i => some (i, environment)
  | none => none

/-- Body of the `for` loop of `resolve_c` at index `i`. -/
def resolve_c_step (name : String) (callptr : Nat) (environment : Environment) (i : Nat) :
    Environment :=
  if nameAt environment i name then
    updateEntry environment i (fun entry => { entry with kind := .C_SYMBOL, callptr := callptr })
  else environment

/-- `resolve_c(environment, name, callptr)`: the environment after the call. -/
def resolve_c (environment : Environment) (name : String) (callptr : Nat) : Environment :=
  (List.range environment.entries.length).foldl (resolve_c_step name callptr) environment

/-- `resolve_bc(environment, name, define_section)`: the environment after the call, or
`none` when `find_symbol` exits. -/
def resolve_bc (environment : Environment) (name : String) (define_section : Nat) :
    Option Environment :=
  match find_symbol environment name with
  | none => none
  | some (i, environment) =>
    some (updateEntry environment i (fun entry =>
      let symbol_name := entry.symbol.name
      { entry with
        kind := .BC_SYMBOL
        arg_types := WORD_ALIGN (entry.symbol.name_addr + symbol_name.utf8ByteSize + 1)
        section_ := define_section }))

/-! ## Sequences of calls on the linkage table -/

/-- One call of the linkage table interface made by a driver. -/
inductive Call where
  | declare (symbol : Symbol)
  | resolve_c (name : String) (callptr : Nat)
  | resolve_bc (name : String) (define_section : Nat)
  deriving DecidableEq, Repr

/-- The environment after one call; `none` when the call exits the process. -/
def Call.apply (environment : Environment) : Call → Option Environment
  | .declare symbol => some (Neat.declare environment symbol).2
  | .resolve_c name callptr => some (Neat.resolve_c environment name callptr)
  | .resolve_bc name define_section => Neat.resolve_bc environment name define_section

/-- The environment after a sequence of calls made in order; `none` when one of them
exits the process. -/
def run (environment : Environment) : List Call → Option Environment
  | [] => some environment
  | c :: cs =>
    match c.apply environment with
    | none => none
    | some environment => run environment cs

/-- The call declares the name. -/
def Call.declares (name : String) : Call → Bool
  | .declare symbol => decide (symbol.name = name)
  | _ => false

/-- The call is a `resolve_c` or `resolve_bc` call for the name. -/
def Call.resolves (name : String) : Call → Bool
  | .declare _ => false
  | .resolve_c n _ => decide (n = name)
  | .resolve_bc n _ => decide (n = name)

/-- The entry carries the kind and payload that the resolving call binds: `C_SYMBOL` and
the `callptr` of a `resolve_c` call, `BC_SYMBOL` and the `section` of a `resolve_bc`
call. -/
def Call.boundIn (entry : SymbolEntry) : Call → Bool
  | .declare _ => false
  | .resolve_c _ callptr => decide (entry.kind = .C_SYMBOL ∧ entry.callptr = callptr)
  | .resolve_bc _ define_section =>
    decide (entry.kind = .BC_SYMBOL ∧ entry.section_ = define_section)

/-- The first entry of the environment whose symbol name equals `name`, if any. -/
def lookup (environment : Environment) (name : String) : Option SymbolEntry :=
  environment.entries.find? (fun entry => decide (entry.symbol.name = name))

/-- What `resolve_bc` assigns to the entry it found. -/
def bindCode (define_section : Nat) (entry : SymbolEntry) : SymbolEntry :=
  { entry with
    kind := .BC_SYMBOL
    arg_types := WORD_ALIGN (entry.symbol.name_addr + entry.symbol.name.utf8ByteSize + 1)
    section_ := define_section }

/-! ## Reference definitions for the hash claims -/

/-- The additive field as the specification writes it: `Σ b[n-1-i]·P^i` over the values
the code reads, in unbounded integers. -/
def polySum (sgn : Bool) (s : List CByte) : Int :=
  ∑ i in Finset.range s.length, charVal sgn (s.getD (s.length - 1 - i) 0) * PRIME ^ i

/-- Horner evaluation in unbounded integers, `h ← h * P + s[i]` for `i = 0 .. n-1`. -/
def hornerInt (sgn : Bool) (h : Int) (s : List CByte) : Int :=
  s.foldl (fun acc c => acc * PRIME + charVal sgn c) h

/-- The rolling hash of the specification in 64-bit arithmetic: start from the carry-in
`h` and apply `h ← h * P + s[i]` for `i = 0 .. n-1` in order. -/
def rolling_hash (sgn : Bool) (h : Int) (s : List CByte) : Int :=
  s.foldl (fun acc c => wrap64 (wrap64 (acc * PRIME) + charVal sgn c)) h

/-- Byte number `i` of a 64-bit integer, byte `0` being the least significant. -/
def byteOf (v : Int) (i : Nat) : CByte := Fin.ofNat (v / 2 ^ (8 * i) % 256).toNat

/-- The eight bytes of a 64-bit integer in little-endian order (least significant byte
first), as the specification words it. -/
def le_bytes (v : Int) : List CByte := (List.range 8).map (byteOf v)

/-- The eight bytes of a 64-bit integer in big-endian order (most significant byte
first). -/
def be_bytes (v : Int) : List CByte := ((List.range 8).map (byteOf v)).reverse

/-! ## Reference counting (`runtime.c`, lines 296-344)

A `ptrdiff_t` is the 64-bit signed machine word.  Memory is a map from the byte address of
a word to the signed value of the word.  The atomic read-modify-write builtins wrap on
overflow and are single steps, so one call is modelled as one state transition.  What a
call prints or hands to another routine is appended to a trace. -/

/-- An observable action of the runtime. -/
inductive Event where
  /-- The report printed by `neat_runtime_refcount_violation(s, ptr)` (with its backtrace):
  tag, address and the counter value printed. -/
  | violation (tag : List CByte) (addr : Nat) (value : Int)
  /-- An indirect call `fn(arg)` through a function pointer read from memory. -/
  | call (fn : Int) (arg : Nat)
  /-- The call `free(ptr)`. -/
  | free (ptr : Nat)
  deriving DecidableEq, Repr

/-- Memory and the trace of actions so far. -/
structure Machine where
  mem : Nat → Int
  trace : List Event

/-- The address held in a memory word. -/
def addrOf (w : Int) : Nat := (w % 2 ^ 64).toNat

/-- `neat_runtime_refcount_violation(s, ptr)`: prints the report and returns. -/
def neat_runtime_refcount_violation (s : List CByte) (ptr : Nat) (m : Machine) : Machine :=
  { m with trace := m.trace ++ [.violation s ptr (m.mem ptr)] }

/-- `neat_runtime_refcount_inc(s, ptr)`:
`result = __atomic_add_fetch(ptr, 1, __ATOMIC_ACQ_REL)`, report when `result <= 1`. -/
def neat_runtime_refcount_inc (s : List CByte) (ptr : Nat) (m : Machine) : Machine :=
  let result := wrap64 (m.mem ptr + 1)
  let m := { m with mem := Function.update m.mem ptr result }
  if result ≤ 1 then neat_runtime_refcount_violation s ptr m else m

/-- `neat_runtime_refcount_dec(s, ptr)`:
`result = __atomic_sub_fetch(ptr, 1, __ATOMIC_ACQ_REL)`, report when `result <= -1`,
return `result == 0`. -/
def neat_runtime_refcount_dec (s : List CByte) (ptr : Nat) (m : Machine) : Bool × Machine :=
  let result := wrap64 (m.mem ptr - 1)
  let m := { m with mem := Function.update m.mem ptr result }
  let m := if result ≤ -1 then neat_runtime_refcount_violation s ptr m else m
  (decide (result = 0), m)

/-- `neat_runtime_refcount_set(ptr, value)`: the atomic store of a `size_t`; the word is read
back as a `ptrdiff_t`. -/
def neat_runtime_refcount_set (ptr : Nat) (value : Nat) (m : Machine) : Machine :=
  { m with mem := Function.update m.mem ptr (wrap64 value) }

/-- The tag `(struct String){5, "class", NULL}`. -/
def classTag : List CByte := [99, 108, 97, 115, 115]

/-- `neat_runtime_class_refcount_inc(ptr)`; `&ptr[1]` is the word after `*ptr`. -/
def neat_runtime_class_refcount_inc (ptr : Nat) (m : Machine) : Machine :=
  if ptr = 0 then m
  else neat_runtime_refcount_inc classTag (ptr + 8) m

/-- `neat_runtime_class_refcount_dec(ptr)`.  The function called through `vtable[1]` is not
part of the runtime: `exec fn arg` is what the call `fn(arg)` does to memory. -/
def neat_runtime_class_refcount_dec (exec : Int → Nat → (Nat → Int) → (Nat → Int))
    (ptr : Nat) (m : Machine) : Machine :=
  if ptr = 0 then m
  else
    let r := neat_runtime_refcount_dec classTag (ptr + 8) m
    if r.1 then
      let vtable := addrOf (r.2.mem ptr)
      let destroy := r.2.mem (vtable + 8)
      let m1 : Machine :=
        { mem := exec destroy ptr r.2.mem, trace := r.2.trace ++ [.call destroy ptr] }
      { m1 with trace := m1.trace ++ [.free ptr] }
    else r.2

/-- The machine after `k` calls of `neat_runtime_refcount_inc(s, ptr)` in a row. -/
def refcount_inc_times (s : List CByte) (ptr : Nat) : Nat → Machine → Machine
  | 0, m => m
  | k + 1, m => neat_runtime_refcount_inc s ptr (refcount_inc_times s ptr k m)

/-- The results, in order, and the machine after `k` calls of
`neat_runtime_refcount_dec(s, ptr)` in a row. -/
def refcount_dec_times (s : List CByte) (ptr : Nat) : Nat → Machine → List Bool × Machine
  | 0, m => ([], m)
  | k + 1, m =>
    let before := refcount_dec_times s ptr k m
    let r := neat_runtime_refcount_dec s ptr before.2
    (before.1 ++ [r.1], r.2)

/-! ## FNV hash (`runtime.c`, lines 159-194)

`FNVState` is a `long long`; the state behind the `void *` is modelled by its value. -/

/-- The bit pattern of a `long long` read as an unsigned 64-bit number. -/
def toU64 (x : Int) : Nat := (x % 2 ^ 64).toNat

/-- The C operator `^` on two `long long` values. -/
def xor64 (a b : Int) : Int := wrap64 ((toU64 a ^^^ toU64 b : Nat) : Int)

/-- `fnv_init`: the value stored in the allocated state; the unsigned constant is
converted to `long long` on assignment. -/
def fnv_init : Int := wrap64 14695981039346656037

/-- Body of the `for` loop of `fnv_add_string` at index `i`:
`HASH = HASH ^ s.ptr[i]; HASH = HASH * 1099511628211;`. -/
def fnv_add_string_step (sgn : Bool) (s : List CByte) (hash : Int) (i : Nat) : Int :=
  let hash := xor64 hash (charVal sgn (s.getD i 0))
  wrap64 (hash * 1099511628211)

/-- `fnv_add_string(state, s)`: the value of the state after the call. -/
def fnv_add_string (sgn : Bool) (state : Int) (s : List CByte) : Int :=
  (List.range s.length).foldl (fnv_add_string_step sgn s) state

/-- Body of the `for` loop of `fnv_add_long` on the pair `(HASH, value)`:
`HASH = HASH ^ (value & 0xff); HASH = HASH * 1099511628211; value >>= 8;`. -/
def fnv_add_long_step (st : Int × Int) (_i : Nat) : Int × Int :=
  let hash := xor64 st.1 (st.2 % 256)
  (wrap64 (hash * 1099511628211), st.2 / 256)

/-- `fnv_add_long(state, value)`: the value of the state after the call. -/
def fnv_add_long (state : Int) (value : Int) : Int :=
  ((List.range 8).foldl fnv_add_long_step (state, value)).1

/-- The streaming hash as the specification words it: the in-order left fold
`h ← (h XOR s[i]) * 1099511628211` modulo `2^64`, each byte taken as its value `0..255`. -/
def fnv_fold (h : Int) (s : List CByte) : Int :=
  s.foldl (fun acc b => wrap64 (xor64 acc (b.val : Int) * 1099511628211)) h

/-! ## Hexadecimal export (`fnv_hex_value`, `poly_hex_value`)

`snprintf` belongs to the C library; its conversion `%.*llX` is modelled after the C
standard. -/

/-- ASCII code of the uppercase hexadecimal digit `d`. -/
def hexDigit (d : Nat) : CByte := if d < 10 then Fin.ofNat (48 + d) else Fin.ofNat (55 + d)

/-- The sixteen hexadecimal digits of an unsigned 64-bit number, most significant
first. -/
def nibbles (v : Nat) : List Nat := ((List.range 16).map (fun i => v / 16 ^ i % 16)).reverse

/-- The conversion `%.*llX` with precision `prec` of a `long long` argument (read as
`unsigned long long`): the uppercase hexadecimal digits without leading zeros, padded
with zeros on the left up to `prec` digits when there are fewer. -/
def format_llX (prec : Nat) (value : Int) : List CByte :=
  let digits := (nibbles (toU64 value)).dropWhile (fun d => d == 0)
  (List.replicate (prec - digits.length) 0 ++ digits).map hexDigit

/-- `snprintf(buf, size, "%.*llX", prec, value)`: the characters stored in `buf` before
the terminating NUL (at most `size - 1`) and the returned count (the length of the whole
conversion). -/
def snprintf_llX (size : Nat) (prec : Nat) (value : Int) : List CByte × Nat :=
  ((format_llX prec value).take (size - 1), (format_llX prec value).length)

/-- A returned `struct String`: the `length` member and the characters that the call
stored at `ptr`. -/
structure CString where
  length : Nat
  ptr : List CByte
  deriving DecidableEq, Repr

/-- `string_alloc(length)`: the `length` member of the fresh string (the buffer is
uninitialised). -/
def string_alloc_length (length : Nat) : Nat := length

/-- `fnv_hex_value(state)`, with `sizeof(FNVState) = 8`. -/
def fnv_hex_value (state : Int) : CString :=
  let r := snprintf_llX (8 + 1) 8 state
  { length := 8, ptr := r.1 }

/-- `poly_hex_value(state)`, with `sizeof(state->add) = 8`. -/
def poly_hex_value (state : PolyHashState) : CString :=
  let ret_length := string_alloc_length (8 * 2 + 1)
  let r := snprintf_llX ret_length 8 state.add
  { length := r.2, ptr := r.1 }

/-! ## Arithmetic modulo `2 ^ 64` -/

theorem wrap64_cast (x : Int) : ((wrap64 x : Int) : ZMod (2 ^ 64)) = (x : ZMod (2 ^ 64)) := by
  have h : (wrap64 x : Int) = x - 2 ^ 64 * ((x + 2 ^ 63) / 2 ^ 64) := by
    unfold wrap64
    have := Int.emod_add_ediv (x + 2 ^ 63) (2 ^ 64)
    linarith
  rw [h]
  have h0 : ((2 ^ 64 : Int) : ZMod (2 ^ 64)) = 0 := by
    have := ZMod.natCast_self (2 ^ 64)
    exact_mod_cast this
  push_cast at h0 ⊢
  rw [h0]
  ring

theorem wrap64_isI64 (x : Int) : IsI64 (wrap64 x) := by
  unfold wrap64 IsI64
  have h1 := Int.emod_nonneg (x + 2 ^ 63) (by norm_num : (2 ^ 64 : Int) ≠ 0)
  have h2 := Int.emod_lt_of_pos (x + 2 ^ 63) (by norm_num : (0 : Int) < 2 ^ 64)
  constructor <;> linarith

theorem wrap64_of_isI64 {x : Int} (h : IsI64 x) : wrap64 x = x := by
  unfold wrap64
  unfold IsI64 at h
  rw [Int.emod_eq_of_lt (by linarith [h.1]) (by linarith [h.2])]
  ring

theorem wrap64_congr {x y : Int} (h : (x : ZMod (2 ^ 64)) = (y : ZMod (2 ^ 64))) :
    wrap64 x = wrap64 y := by
  have h2 : x ≡ y [ZMOD ((2 ^ 64 : Nat) : Int)] := (ZMod.intCast_eq_intCast_iff x y (2 ^ 64)).1 h
  have h3 : x + 2 ^ 63 ≡ y + 2 ^ 63 [ZMOD ((2 ^ 64 : Nat) : Int)] := h2.add_right _
  unfold wrap64
  have h4 : (x + 2 ^ 63) % 2 ^ 64 = (y + 2 ^ 63) % 2 ^ 64 := by
    have := h3
    unfold Int.ModEq at this
    exact_mod_cast this
  rw [h4]

theorem poly_apply_hash_eq (a b : PolyHashState) :
    poly_apply_hash a b =
      { add := wrap64 (a.add * b.mult + b.add), mult := wrap64 (a.mult * b.mult) } := by
  unfold poly_apply_hash
  congr 1
  apply wrap64_congr
  simp only [wrap64_cast, Int.cast_add, Int.cast_mul, Int.cast_pow, Int.cast_sum]

/-! ## The loop of `poly_hash_string` -/

theorem poly_hash_string_loop (sgn : Bool) (s : List CByte) (k : Nat) :
    (List.range k).foldl (poly_hash_string_step sgn s) { add := 0, mult := 1 } =
      { add := wrap64 (∑ i in Finset.range k,
          charVal sgn (s.getD (s.length - 1 - i) 0) * PRIME ^ i)
        mult := wrap64 (PRIME ^ k) } := by
  induction k with
  | zero => simp [wrap64]
  | succ k ih =>
    rw [List.range_succ, List.foldl_append, ih]
    simp only [List.foldl_cons, List.foldl_nil, poly_hash_string_step]
    congr 1
    · apply wrap64_congr
      rw [Finset.sum_range_succ]
      simp only [wrap64_cast, Int.cast_add, Int.cast_mul, Int.cast_pow, Int.cast_sum]
    · apply wrap64_congr
      simp only [wrap64_cast, Int.cast_add, Int.cast_mul, Int.cast_pow, Int.cast_sum]
      ring

theorem poly_hash_string_eq (sgn : Bool) (s : List CByte) :
    poly_hash_string sgn s =
      { add := wrap64 (polySum sgn s), mult := wrap64 (PRIME ^ s.length) } :=
  poly_hash_string_loop sgn s s.length

theorem polySum_snoc (sgn : Bool) (s : List CByte) (c : CByte) :
    polySum sgn (s ++ [c]) = polySum sgn s * PRIME + charVal sgn c := by
  unfold polySum
  simp only [List.length_append, List.length_singleton]
  rw [Finset.sum_range_succ', Finset.sum_mul]
  congr 1
  · apply Finset.sum_congr rfl
    intro i hi
    have hi2 : i < s.length := Finset.mem_range.1 hi
    have e : s.length + 1 - 1 - (i + 1) = s.length - 1 - i := by omega
    rw [e, List.getD_append _ _ _ _ (by omega)]
    ring
  · simp [List.getD_append_right]

theorem hornerInt_snoc (sgn : Bool) (h : Int) (s : List CByte) (c : CByte) :
    hornerInt sgn h (s ++ [c]) = hornerInt sgn h s * PRIME + charVal sgn c := by
  simp [hornerInt, List.foldl_append]

theorem polySum_eq_hornerInt (sgn : Bool) (s : List CByte) :
    polySum sgn s = hornerInt sgn 0 s := by
  induction s using List.reverseRecOn with
  | nil => simp [polySum, hornerInt]
  | append_singleton s c ih => rw [polySum_snoc, hornerInt_snoc, ih]

theorem hornerInt_carry (sgn : Bool) (s : List CByte) (h : Int) :
    hornerInt sgn h s = h * PRIME ^ s.length + hornerInt sgn 0 s := by
  induction s using List.reverseRecOn with
  | nil => simp [hornerInt]
  | append_singleton s c ih =>
    rw [hornerInt_snoc, hornerInt_snoc, ih, List.length_append, List.length_singleton, pow_succ]
    ring

theorem hornerInt_append (sgn : Bool) (h : Int) (A B : List CByte) :
    hornerInt sgn h (A ++ B) = hornerInt sgn (hornerInt sgn h A) B := by
  simp [hornerInt, List.foldl_append]

theorem polySum_append (sgn : Bool) (A B : List CByte) :
    polySum sgn (A ++ B) = polySum sgn A * PRIME ^ B.length + polySum sgn B := by
  rw [polySum_eq_hornerInt, polySum_eq_hornerInt, polySum_eq_hornerInt, hornerInt_append,
    hornerInt_carry sgn B (hornerInt sgn 0 A)]

/-! ## Claims about the polynomial hash -/

/-- C1: hashing a concatenation `A ++ B` gives exactly the state obtained by composing
the hash of `A` (left) with the hash of `B` (right) through `poly_apply_hash`, in both
fields and whatever the signedness of `char`; in particular the hash of the text "hi"
(bytes 104, 105) is the composition of the hashes of "h" and "i", the pair
`(mult, add) = (956575116354345, 114349209334049)`. -/
theorem poly_hash_string_append :
    (∀ (sgn : Bool) (A B : List CByte),
      poly_hash_string sgn (A ++ B) =
        poly_apply_hash (poly_hash_string sgn A) (poly_hash_string sgn B)) ∧
    (∀ sgn : Bool,
      poly_hash_string sgn [104, 105] =
        poly_apply_hash (poly_hash_string sgn [104]) (poly_hash_string sgn [105]) ∧
      poly_hash_string sgn [104, 105] =
        { add := 114349209334049, mult := 956575116354345 }) := by
  have key : ∀ (sgn : Bool) (A B : List CByte),
      poly_hash_string sgn (A ++ B) =
        poly_apply_hash (poly_hash_string sgn A) (poly_hash_string sgn B) := by
    intro sgn A B
    rw [poly_apply_hash_eq, poly_hash_string_eq, poly_hash_string_eq, poly_hash_string_eq,
      polySum_append, List.length_append]
    congr 1
    · apply wrap64_congr
      simp only [wrap64_cast, Int.cast_add, Int.cast_mul, Int.cast_pow, Int.cast_sum]
    · apply wrap64_congr
      simp only [wrap64_cast, Int.cast_add, Int.cast_mul, Int.cast_pow, Int.cast_sum]
      ring
  refine ⟨key, fun sgn => ⟨key sgn [104] [105], ?_⟩⟩
  cases sgn <;> decide

/-- C2: `poly_apply_hash` is associative on arbitrary states: composing `(a ∘ b)` with
`c` gives the same `add` and `mult` as composing `a` with `(b ∘ c)`. -/
theorem poly_apply_hash_assoc (a b c : PolyHashState) :
    poly_apply_hash (poly_apply_hash a b) c = poly_apply_hash a (poly_apply_hash b c) := by
  simp only [poly_apply_hash_eq]
  congr 1
  · apply wrap64_congr
    simp only [wrap64_cast, Int.cast_add, Int.cast_mul, Int.cast_pow, Int.cast_sum]
    ring
  · apply wrap64_congr
    simp only [wrap64_cast, Int.cast_add, Int.cast_mul, Int.cast_pow, Int.cast_sum]
    ring

/-- C3: for a byte sequence `s` of length `n`, `poly_hash_string` returns
`mult = P^n` and `add = Σ_{i<n} s[n-1-i] * P^i` wrapped to 64 bits, each `s[k]` being the
value the code reads through the `char` pointer; the empty sequence gives
`(mult = 1, add = 0)`. -/
theorem poly_hash_string_closed_form (sgn : Bool) (s : List CByte) :
    (poly_hash_string sgn s).mult = wrap64 (PRIME ^ s.length) ∧
    (poly_hash_string sgn s).add =
      wrap64 (∑ i in Finset.range s.length,
        charVal sgn (s.getD (s.length - 1 - i) 0) * PRIME ^ i) ∧
    PRIME = 1099511628211 ∧
    poly_hash_string sgn [] = { add := 0, mult := 1 } := by
  rw [poly_hash_string_eq]
  exact ⟨rfl, rfl, rfl, rfl⟩

theorem rolling_hash_cast (sgn : Bool) (s : List CByte) (h : Int) :
    ((rolling_hash sgn h s : Int) : ZMod (2 ^ 64)) = ((hornerInt sgn h s : Int) : ZMod (2 ^ 64)) := by
  induction s using List.reverseRecOn with
  | nil => simp [rolling_hash, hornerInt]
  | append_singleton s c ih =>
    rw [hornerInt_snoc]
    have e : rolling_hash sgn h (s ++ [c]) =
        wrap64 (wrap64 (rolling_hash sgn h s * PRIME) + charVal sgn c) := by
      simp [rolling_hash, List.foldl_append]
    rw [e]
    simp only [wrap64_cast, Int.cast_add, Int.cast_mul, ih]

theorem rolling_hash_isI64 (sgn : Bool) (s : List CByte) (h : Int) (hh : IsI64 h) :
    IsI64 (rolling_hash sgn h s) := by
  induction s using List.reverseRecOn with
  | nil => simpa [rolling_hash] using hh
  | append_singleton s c _ =>
    have e : rolling_hash sgn h (s ++ [c]) =
        wrap64 (wrap64 (rolling_hash sgn h s * PRIME) + charVal sgn c) := by
      simp [rolling_hash, List.foldl_append]
    rw [e]
    exact wrap64_isI64 _

theorem polySum_reflect (sgn : Bool) (s : List CByte) :
    polySum sgn s =
      ∑ i in Finset.range s.length, charVal sgn (s.getD i 0) * PRIME ^ (s.length - 1 - i) := by
  rw [← Finset.sum_range_reflect
    (fun j => charVal sgn (s.getD j 0) * PRIME ^ (s.length - 1 - j)) s.length]
  unfold polySum
  apply Finset.sum_congr rfl
  intro i hi
  have hi2 : i < s.length := Finset.mem_range.1 hi
  have e : s.length - 1 - (s.length - 1 - i) = i := by omega
  simp only [e]

/-- C4: started from a state `(add = h, mult = m)` with `h` a 64-bit value,
`poly_add_string` leaves `add` equal to the rolling hash obtained from `h` by
`h ← h * P + s[i]` for `i = 0 .. n-1`, which is
`h * P^n + s[0] * P^(n-1) + ... + s[n-1]` wrapped to 64 bits, and leaves `mult` equal to
`m * P^n` wrapped to 64 bits. -/
theorem poly_add_string_rolling (sgn : Bool) (h m : Int) (s : List CByte) (hh : IsI64 h) :
    (poly_add_string sgn { add := h, mult := m } s).add = rolling_hash sgn h s ∧
    (poly_add_string sgn { add := h, mult := m } s).add =
      wrap64 (h * PRIME ^ s.length +
        ∑ i in Finset.range s.length, charVal sgn (s.getD i 0) * PRIME ^ (s.length - 1 - i)) ∧
    (poly_add_string sgn { add := h, mult := m } s).mult = wrap64 (m * PRIME ^ s.length) := by
  have hadd : (poly_add_string sgn { add := h, mult := m } s).add =
      wrap64 (h * PRIME ^ s.length + polySum sgn s) := by
    unfold poly_add_string
    rw [poly_apply_hash_eq, poly_hash_string_eq]
    apply wrap64_congr
    simp only [wrap64_cast, Int.cast_add, Int.cast_mul, Int.cast_pow]
  refine ⟨?_, ?_, ?_⟩
  · rw [hadd, ← wrap64_of_isI64 (rolling_hash_isI64 sgn s h hh)]
    apply wrap64_congr
    rw [rolling_hash_cast, hornerInt_carry, polySum_eq_hornerInt]
  · rw [hadd, polySum_reflect]
  · unfold poly_add_string
    rw [poly_apply_hash_eq, poly_hash_string_eq]
    apply wrap64_congr
    simp only [wrap64_cast, Int.cast_add, Int.cast_mul, Int.cast_pow]

/-- Witness of C4 at the state `(add = 5, mult = 3)` and the bytes of "hi". -/
theorem poly_add_string_rolling_witness :
    IsI64 5 ∧
    (poly_add_string true { add := 5, mult := 3 } [104, 105]).add =
      rolling_hash true 5 [104, 105] ∧
    (poly_add_string true { add := 5, mult := 3 } [104, 105]).mult = wrap64 (3 * PRIME ^ 2) :=
  ⟨by decide, (poly_add_string_rolling true 5 3 [104, 105] (by decide)).1,
    (poly_add_string_rolling true 5 3 [104, 105] (by decide)).2.2⟩

theorem charVal_byteOf (sgn : Bool) (v : Int) (i : Nat)
    (h : sgn = false ∨ (byteOf v i).val < 128) :
    charVal sgn (byteOf v i) = v / 2 ^ (8 * i) % 256 := by
  have h0 : 0 ≤ v / 2 ^ (8 * i) % 256 := Int.emod_nonneg _ (by norm_num)
  have h1 : v / 2 ^ (8 * i) % 256 < 256 := Int.emod_lt_of_pos _ (by norm_num)
  have hv : ((byteOf v i).val : Int) = v / 2 ^ (8 * i) % 256 := by
    unfold byteOf
    simp only [Fin.ofNat, Fin.val_mk]
    omega
  unfold charVal
  rcases h with h | h
  · simp [h, hv]
  · have : ¬ (128 ≤ (byteOf v i).val) := by omega
    simp [this, hv]

theorem be_bytes_getD (v : Int) (i : Nat) (hi : i < 8) :
    (be_bytes v).getD (8 - 1 - i) 0 = byteOf v i := by
  interval_cases i <;> rfl

theorem byteOf_mem_be_bytes (v : Int) (i : Nat) (hi : i < 8) : byteOf v i ∈ be_bytes v := by
  unfold be_bytes
  rw [List.mem_reverse, List.mem_map]
  exact ⟨i, List.mem_range.2 hi, rfl⟩

/-- C5 (as amended): `poly_hash_long v` equals `poly_hash_string` applied to the eight
bytes of `v` in big-endian order (most significant byte first), in both fields, when
every byte is read as its value `0..255`: i.e. where plain `char` is unsigned, or every
byte of `v` is below 128. -/
theorem poly_hash_long_be_bytes (sgn : Bool) (v : Int)
    (h : sgn = false ∨ ∀ b ∈ be_bytes v, b.val < 128) :
    poly_hash_long v = poly_hash_string sgn (be_bytes v) := by
  have hlen : (be_bytes v).length = 8 := by simp [be_bytes]
  unfold poly_hash_long poly_hash_string
  rw [hlen]
  apply List.foldl_ext
  intro r i hi
  have hi8 : i < 8 := List.mem_range.1 hi
  unfold poly_hash_long_step poly_hash_string_step
  rw [hlen, be_bytes_getD v i hi8, charVal_byteOf sgn v i]
  rcases h with h | h
  · exact Or.inl h
  · exact Or.inr (h _ (byteOf_mem_be_bytes v i hi8))

/-- Witness of C5 (as amended) at `v = 0x0102030405060708` with signed `char`. -/
theorem poly_hash_long_be_bytes_witness :
    (∀ b ∈ be_bytes 72623859790382856, b.val < 128) ∧
    poly_hash_long 72623859790382856 = poly_hash_string true (be_bytes 72623859790382856) :=
  ⟨by decide, poly_hash_long_be_bytes true 72623859790382856 (Or.inr (by decide))⟩

/-- C5 (counterexample): for `v = 1` the hash of the little-endian byte sequence
`01 00 00 00 00 00 00 00` has `add = P^7 mod 2^64`, while `poly_hash_long 1` has
`add = 1`; the two differ whatever the signedness of `char`. -/
theorem poly_hash_long_le_bytes_counterexample :
    (poly_hash_long 1).add = 1 ∧
    (poly_hash_string true (le_bytes 1)).add = -4228181266138934565 ∧
    poly_hash_long 1 ≠ poly_hash_string true (le_bytes 1) ∧
    poly_hash_long 1 ≠ poly_hash_string false (le_bytes 1) ∧
    ¬ (∀ (sgn : Bool) (v : Int), IsI64 v →
        poly_hash_long v = poly_hash_string sgn (le_bytes v)) := by
  refine ⟨by decide, by decide, by decide, by decide, ?_⟩
  intro hall
  exact absurd (hall true 1 (by decide)) (by decide)

/-! ## The linkage table: basic facts -/

theorem nameAt_iff (environment : Environment) (i : Nat) (name : String) :
    nameAt environment i name = true ↔
      ∃ entry, environment.entries[i]? = some entry ∧ entry.symbol.name = name := by
  unfold nameAt
  cases h : environment.entries[i]? with
  | none => simp
  | some entry => simp

theorem nameAt_of_getElem? {environment : Environment} {i : Nat} {entry : SymbolEntry}
    (h : environment.entries[i]? = some entry) (name : String) :
    nameAt environment i name = decide (entry.symbol.name = name) := by
  unfold nameAt
  rw [h]

theorem updateEntry_of_getElem? {environment : Environment} {i : Nat} {entry : SymbolEntry}
    (h : environment.entries[i]? = some entry) (f : SymbolEntry → SymbolEntry) :
    updateEntry environment i f = { entries := environment.entries.set i (f entry) } := by
  unfold updateEntry
  rw [h]

/-- What `resolve_c` stores in an entry. -/
theorem resolve_c_loop (name : String) (callptr : Nat) (environment : Environment) (k : Nat)
    (hk : k ≤ environment.entries.length) :
    ((List.range k).foldl (resolve_c_step name callptr) environment).entries.length =
        environment.entries.length ∧
    ∀ j, ((List.range k).foldl (resolve_c_step name callptr) environment).entries[j]? =
      if j < k then
        (environment.entries[j]?).map (fun entry =>
          if entry.symbol.name = name then
            { entry with kind := .C_SYMBOL, callptr := callptr }
          else entry)
      else environment.entries[j]? := by
  induction k with
  | zero => simp
  | succ k ih =>
    obtain ⟨ihlen, ihget⟩ := ih (by omega)
    rw [List.range_succ, List.foldl_append]
    simp only [List.foldl_cons, List.foldl_nil]
    generalize (List.range k).foldl (resolve_c_step name callptr) environment = cur at ihlen ihget
    have hk2 : k < environment.entries.length := by omega
    have hcur : cur.entries[k]? = some (environment.entries[k]) := by
      rw [ihget k]
      simp [hk2]
    unfold resolve_c_step
    rw [nameAt_of_getElem? hcur]
    by_cases hn : (environment.entries[k]).symbol.name = name
    · simp only [hn, decide_True, if_true]
      rw [updateEntry_of_getElem? hcur]
      refine ⟨by simp [ihlen], ?_⟩
      intro j
      simp only [List.getElem?_set, ihlen, hk2, if_true]
      by_cases hjk : k = j
      · subst hjk
        simp [hk2, hn]
      · simp only [hjk, if_false, ihget j]
        by_cases hlt : j < k
        · have : j < k + 1 := by omega
          simp [hlt, this]
        · have : ¬ j < k + 1 := by omega
          simp [hlt, this]
    · simp only [hn, decide_False]
      refine ⟨ihlen, ?_⟩
      intro j
      rw [if_neg (by simp), ihget j]
      by_cases hjk : k = j
      · subst hjk
        simp [hk2, hn]
      · by_cases hlt : j < k
        · have : j < k + 1 := by omega
          simp [hlt, this]
        · have : ¬ j < k + 1 := by omega
          simp [hlt, this]

theorem resolve_c_eq_map (environment : Environment) (name : String) (callptr : Nat) :
    resolve_c environment name callptr =
      { entries := environment.entries.map (fun entry =>
          if entry.symbol.name = name then
            { entry with kind := .C_SYMBOL, callptr := callptr }
          else entry) } := by
  obtain ⟨_, hget⟩ := resolve_c_loop name callptr environment environment.entries.length
    (le_refl _)
  unfold resolve_c
  generalize (List.range environment.entries.length).foldl (resolve_c_step name callptr)
    environment = res at hget
  cases res with
  | mk entries =>
    congr 1
    apply List.ext_getElem?
    intro j
    rw [hget j, List.getElem?_map]
    by_cases hj : j < environment.entries.length
    · simp [hj]
    · simp [hj, List.getElem?_eq_none (Nat.le_of_not_lt hj)]

theorem find_symbol_eq_some (environment : Environment) (name : String) (i : Nat)
    (environment' : Environment) :
    find_symbol environment name = some (i, environment') ↔
      environment' = environment ∧
      (∃ entry, environment.entries[i]? = some entry ∧ entry.symbol.name = name) ∧
      ∀ j, j < i → ∀ e, environment.entries[j]? = some e → e.symbol.name ≠ name := by
  unfold find_symbol
  cases h : (List.range environment.entries.length).find?
      (fun i => nameAt environment i name) with
  | none =>
    refine ⟨fun hc => (by cases hc), ?_⟩
    rintro ⟨_, ⟨entry, he, hn⟩, _⟩
    exfalso
    rw [List.find?_range_eq_none] at h
    have hi : i < environment.entries.length := by
      rcases Nat.lt_or_ge i environment.entries.length with hlt | hge
      · exact hlt
      · rw [List.getElem?_eq_none hge] at he
        cases he
    have := h i hi
    rw [nameAt_of_getElem? he] at this
    simp [hn] at this
  | some k =>
    rw [List.find?_range_eq_some] at h
    obtain ⟨hk, _, hmin⟩ := h
    have hk2 := (nameAt_iff environment k name).1 hk
    have hmin2 : ∀ j, j < k → ∀ e, environment.entries[j]? = some e → e.symbol.name ≠ name := by
      intro j hj e he hn
      have := hmin j hj
      rw [nameAt_of_getElem? he] at this
      simp [hn] at this
    constructor
    · intro heq
      simp only [Option.some.injEq, Prod.mk.injEq] at heq
      obtain ⟨h1, h2⟩ := heq
      subst h1
      exact ⟨h2.symm, hk2, hmin2⟩
    · rintro ⟨h1, ⟨entry, he, hn⟩, hmin3⟩
      subst h1
      obtain ⟨entryk, hek, hnk⟩ := hk2
      have : k = i := by
        rcases Nat.lt_trichotomy k i with hlt | heq | hgt
        · exact absurd hnk (hmin3 k hlt entryk hek)
        · exact heq
        · exact absurd hn (hmin2 i hgt entry he)
      rw [this]

theorem find_symbol_eq_none (environment : Environment) (name : String) :
    find_symbol environment name = none ↔
      ∀ entry ∈ environment.entries, entry.symbol.name ≠ name := by
  unfold find_symbol
  cases h : (List.range environment.entries.length).find?
      (fun i => nameAt environment i name) with
  | none =>
    refine ⟨fun _ => ?_, fun _ => rfl⟩
    rw [List.find?_range_eq_none] at h
    intro entry hmem hn
    obtain ⟨i, hi, hget⟩ := List.getElem_of_mem hmem
    have := h i hi
    rw [nameAt_of_getElem? (List.getElem?_eq_getElem hi), hget] at this
    simp [hn] at this
  | some k =>
    refine ⟨fun hc => (by cases hc), ?_⟩
    rw [List.find?_range_eq_some] at h
    obtain ⟨entry, he, hn⟩ := (nameAt_iff environment k name).1 h.1
    intro hall
    exact absurd hn (hall entry (List.getElem?_mem he))

/-! ## Claims about the linkage table -/

/-- C6: `resolve_c` returns for every environment (it has no fatal exit), keeps the number
and order of entries, sets `kind = C_SYMBOL` and `callptr = f` on every entry whose symbol
name equals `name`, leaves every other entry as it was, and leaves the whole environment
as it was when no entry matches; after declaring "add" three times in an empty
environment, `resolve_c` binds all three entries to `f`. -/
theorem resolve_c_binds_all (environment : Environment) (name : String) (f : Nat) :
    (resolve_c environment name f).entries.length = environment.entries.length ∧
    (∀ (i : Nat) (entry : SymbolEntry), environment.entries[i]? = some entry →
      ∃ entry' : SymbolEntry, (resolve_c environment name f).entries[i]? = some entry' ∧
        entry'.symbol = entry.symbol ∧
        (entry.symbol.name = name → entry'.kind = .C_SYMBOL ∧ entry'.callptr = f) ∧
        (entry.symbol.name ≠ name → entry' = entry)) ∧
    ((∀ entry ∈ environment.entries, entry.symbol.name ≠ name) →
      resolve_c environment name f = environment) ∧
    (∀ a1 a2 a3 : Symbol, a1.name = "add" → a2.name = "add" → a3.name = "add" →
      (resolve_c (declare (declare (declare { entries := [] } a1).2 a2).2 a3).2 "add" f).entries
        = [{ kind := .C_SYMBOL, symbol := a1, callptr := f, arg_types := 0, section_ := 0 },
           { kind := .C_SYMBOL, symbol := a2, callptr := f, arg_types := 0, section_ := 0 },
           { kind := .C_SYMBOL, symbol := a3, callptr := f, arg_types := 0, section_ := 0 }]) := by
  rw [resolve_c_eq_map]
  refine ⟨by simp, ?_, ?_, ?_⟩
  · intro i entry he
    refine ⟨_, by rw [List.getElem?_map, he]; rfl, ?_, ?_, ?_⟩
    · dsimp only
      split <;> rfl
    · intro hn
      simp [hn]
    · intro hn
      simp [hn]
  · intro hall
    cases environment with
    | mk entries =>
      congr 1
      have hmap : entries.map (fun entry =>
          if entry.symbol.name = name then
            { entry with kind := SymbolKind.C_SYMBOL, callptr := f }
          else entry) = entries.map id :=
        List.map_congr_left (fun entry hmem => by simp [hall entry hmem])
      rw [hmap, List.map_id]
  · intro a1 a2 a3 h1 h2 h3
    rw [resolve_c_eq_map]
    simp [declare, h1, h2, h3]

/-- Witness of C6: two entries named "add" and one named "main"; both "add" entries are
bound to the function pointer 77 and the "main" entry is unchanged. -/
theorem resolve_c_binds_all_witness :
    (resolve_c { entries :=
        [{ kind := .UNRESOLVED_SYMBOL, symbol := ⟨"add", 1000, 2⟩, callptr := 0, arg_types := 0,
           section_ := 0 },
         { kind := .UNRESOLVED_SYMBOL, symbol := ⟨"main", 2000, 0⟩, callptr := 0, arg_types := 0,
           section_ := 0 },
         { kind := .UNRESOLVED_SYMBOL, symbol := ⟨"add", 3000, 1⟩, callptr := 0, arg_types := 0,
           section_ := 0 }] } "add" 77).entries.length = 3 ∧
    (resolve_c (declare (declare (declare { entries := [] } ⟨"add", 1000, 2⟩).2
        ⟨"add", 2000, 1⟩).2 ⟨"add", 3000, 0⟩).2 "add" 77).entries
      = [{ kind := .C_SYMBOL, symbol := ⟨"add", 1000, 2⟩, callptr := 77, arg_types := 0,
           section_ := 0 },
         { kind := .C_SYMBOL, symbol := ⟨"add", 2000, 1⟩, callptr := 77, arg_types := 0,
           section_ := 0 },
         { kind := .C_SYMBOL, symbol := ⟨"add", 3000, 0⟩, callptr := 77, arg_types := 0,
           section_ := 0 }] :=
  ⟨(resolve_c_binds_all _ "add" 77).1,
    (resolve_c_binds_all { entries := [] } "add" 77).2.2.2 _ _ _ rfl rfl rfl⟩

/-- C7: `find_symbol` returns the entry at the smallest index whose symbol name equals
`name` and leaves the environment as it was; it takes the fatal exit if and only if no
entry of the environment has that name. -/
theorem find_symbol_first_match (environment : Environment) (name : String) :
    (∀ i environment', find_symbol environment name = some (i, environment') ↔
      environment' = environment ∧
      (∃ entry, environment.entries[i]? = some entry ∧ entry.symbol.name = name) ∧
      ∀ j, j < i → ∀ e, environment.entries[j]? = some e → e.symbol.name ≠ name) ∧
    (find_symbol environment name = none ↔
      ∀ entry ∈ environment.entries, entry.symbol.name ≠ name) :=
  ⟨fun i environment' => find_symbol_eq_some environment name i environment',
    find_symbol_eq_none environment name⟩

/-- C9: in an environment of `n` entries `declare` returns `n` and leaves `n + 1`
entries; entry `n` has kind `UNRESOLVED_SYMBOL` and refers to the given symbol, entries
`0 .. n-1` are unchanged; no uniqueness check is made: declaring the same symbol twice
appends two entries. -/
theorem declare_appends (environment : Environment) (symbol : Symbol) :
    (declare environment symbol).1 = environment.entries.length ∧
    (declare environment symbol).2.entries.length = environment.entries.length + 1 ∧
    (∃ entry, (declare environment symbol).2.entries[environment.entries.length]? = some entry ∧
      entry.kind = .UNRESOLVED_SYMBOL ∧ entry.symbol = symbol) ∧
    (∀ i, i < environment.entries.length →
      (declare environment symbol).2.entries[i]? = environment.entries[i]?) ∧
    (declare (declare environment symbol).2 symbol).1 = environment.entries.length + 1 ∧
    (declare (declare environment symbol).2 symbol).2.entries.length =
      environment.entries.length + 2 := by
  refine ⟨by simp [declare], by simp [declare], ?_, ?_, by simp [declare], by simp [declare]⟩
  · exact ⟨{ kind := .UNRESOLVED_SYMBOL, symbol := symbol, callptr := 0, arg_types := 0,
             section_ := 0 }, by simp [declare], rfl, rfl⟩
  · intro i hi
    simp only [declare]
    rw [List.getElem?_append_left hi]

theorem resolve_bc_of_find (environment : Environment) (name : String) (define_section : Nat)
    (i : Nat) (entry : SymbolEntry)
    (hfind : find_symbol environment name = some (i, environment))
    (hentry : environment.entries[i]? = some entry) :
    resolve_bc environment name define_section =
      some { entries := environment.entries.set i (bindCode define_section entry) } := by
  unfold resolve_bc
  rw [hfind]
  simp only
  rw [updateEntry_of_getElem? hentry]
  rfl

theorem resolve_bc_eq_none (environment : Environment) (name : String) (define_section : Nat) :
    resolve_bc environment name define_section = none ↔
      ∀ entry ∈ environment.entries, entry.symbol.name ≠ name := by
  rw [← find_symbol_eq_none]
  unfold resolve_bc
  cases h : find_symbol environment name with
  | none => simp
  | some res => simp

/-- C8: when `name` is declared exactly once, at index `i`, `resolve_bc` returns, sets
the kind of entry `i` to `BC_SYMBOL` and its section to `define_section` (the entry still
refers to the same symbol), and leaves the number and order of entries and every other
entry unchanged; `resolve_bc` takes the fatal exit exactly when `name` is not declared. -/
theorem resolve_bc_binds_unique (environment : Environment) (name : String)
    (define_section : Nat) :
    (∀ (i : Nat) (entry : SymbolEntry),
      environment.entries[i]? = some entry → entry.symbol.name = name →
      (∀ (j : Nat) (e : SymbolEntry),
        environment.entries[j]? = some e → e.symbol.name = name → j = i) →
      ∃ (environment' : Environment) (entry' : SymbolEntry),
        resolve_bc environment name define_section = some environment' ∧
        environment'.entries.length = environment.entries.length ∧
        environment'.entries[i]? = some entry' ∧
        entry'.kind = .BC_SYMBOL ∧ entry'.section_ = define_section ∧
        entry'.symbol = entry.symbol ∧
        ∀ j, j ≠ i → environment'.entries[j]? = environment.entries[j]?) ∧
    (resolve_bc environment name define_section = none ↔
      ∀ entry ∈ environment.entries, entry.symbol.name ≠ name) := by
  refine ⟨?_, resolve_bc_eq_none environment name define_section⟩
  intro i entry hentry hname huniq
  have hfind : find_symbol environment name = some (i, environment) := by
    rw [find_symbol_eq_some]
    refine ⟨rfl, ⟨entry, hentry, hname⟩, ?_⟩
    intro j hj e he hn
    have := huniq j e he hn
    omega
  have hi : i < environment.entries.length := by
    rcases Nat.lt_or_ge i environment.entries.length with hlt | hge
    · exact hlt
    · rw [List.getElem?_eq_none hge] at hentry
      cases hentry
  refine ⟨_, bindCode define_section entry,
    resolve_bc_of_find environment name define_section i entry hfind hentry, by simp, ?_,
    rfl, rfl, rfl, ?_⟩
  · simp [List.getElem?_set, hi]
  · intro j hj
    simp [List.getElem?_set, Ne.symm hj]

/-- Witness of C8: "add" and "main" are declared once each in an empty environment;
`resolve_bc` for "main" binds entry 1 to section 5 and keeps entry 0. -/
theorem resolve_bc_binds_unique_witness :
    ∃ (environment' : Environment) (entry' : SymbolEntry),
      resolve_bc (declare (declare { entries := [] } ⟨"add", 1000, 2⟩).2 ⟨"main", 2000, 0⟩).2
        "main" 5 = some environment' ∧
      environment'.entries.length =
        (declare (declare { entries := [] } ⟨"add", 1000, 2⟩).2
          ⟨"main", 2000, 0⟩).2.entries.length ∧
      environment'.entries[1]? = some entry' ∧
      entry'.kind = .BC_SYMBOL ∧ entry'.section_ = 5 ∧
      entry'.symbol = (⟨"main", 2000, 0⟩ : Symbol) ∧
      ∀ j, j ≠ 1 → environment'.entries[j]? =
        (declare (declare { entries := [] } ⟨"add", 1000, 2⟩).2 ⟨"main", 2000, 0⟩).2.entries[j]? :=
  (resolve_bc_binds_unique
      (declare (declare { entries := [] } ⟨"add", 1000, 2⟩).2 ⟨"main", 2000, 0⟩).2 "main" 5).1 1
    { kind := .UNRESOLVED_SYMBOL, symbol := ⟨"main", 2000, 0⟩, callptr := 0, arg_types := 0,
      section_ := 0 }
    rfl rfl
    (by
      intro j e he hn
      rcases j with _ | _ | j
      · simp [declare] at he
        subst he
        simp at hn
      · rfl
      · simp [declare] at he)

/-! ## Sequences of calls: the first entry of a name -/

theorem lookup_split {environment : Environment} {name : String} {entry : SymbolEntry}
    (h : lookup environment name = some entry) :
    ∃ front back, environment.entries = front ++ entry :: back ∧
      (∀ a ∈ front, a.symbol.name ≠ name) ∧ entry.symbol.name = name := by
  unfold lookup at h
  rw [List.find?_eq_some] at h
  obtain ⟨hp, front, back, hsplit, hno⟩ := h
  refine ⟨front, back, hsplit, ?_, by simpa using hp⟩
  intro a ha
  simpa using hno a ha

theorem lookup_eq_none {environment : Environment} {name : String} :
    lookup environment name = none ↔
      ∀ entry ∈ environment.entries, entry.symbol.name ≠ name := by
  unfold lookup
  simp

theorem find_symbol_of_split (environment : Environment) (name : String)
    (front back : List SymbolEntry) (entry : SymbolEntry)
    (hsplit : environment.entries = front ++ entry :: back)
    (hno : ∀ a ∈ front, a.symbol.name ≠ name) (hname : entry.symbol.name = name) :
    find_symbol environment name = some (front.length, environment) ∧
      environment.entries[front.length]? = some entry := by
  have hget : environment.entries[front.length]? = some entry := by
    rw [hsplit, List.getElem?_append_right (le_refl _)]
    simp
  refine ⟨?_, hget⟩
  rw [find_symbol_eq_some]
  refine ⟨rfl, ⟨entry, hget, hname⟩, ?_⟩
  intro j hj e he
  rw [hsplit, List.getElem?_append_left hj] at he
  exact hno e (List.getElem?_mem he)

theorem find_symbol_of_lookup {environment : Environment} {name : String} {entry : SymbolEntry}
    (h : lookup environment name = some entry) :
    ∃ i, find_symbol environment name = some (i, environment) ∧
      environment.entries[i]? = some entry := by
  obtain ⟨front, back, hsplit, hno, hname⟩ := lookup_split h
  exact ⟨front.length, find_symbol_of_split environment name front back entry hsplit hno hname⟩

theorem resolve_bc_of_split (environment : Environment) (name : String) (define_section : Nat)
    (front back : List SymbolEntry) (entry : SymbolEntry)
    (hsplit : environment.entries = front ++ entry :: back)
    (hno : ∀ a ∈ front, a.symbol.name ≠ name) (hname : entry.symbol.name = name) :
    resolve_bc environment name define_section =
      some { entries := front ++ bindCode define_section entry :: back } := by
  obtain ⟨hfind, hget⟩ := find_symbol_of_split environment name front back entry hsplit hno hname
  rw [resolve_bc_of_find environment name define_section front.length entry hfind hget, hsplit]
  simp

theorem lookup_declare (environment : Environment) (symbol : Symbol) (name : String)
    (entry : SymbolEntry) (h : lookup environment name = some entry) :
    lookup (declare environment symbol).2 name = some entry := by
  unfold lookup at h ⊢
  simp only [declare, List.find?_append, h, Option.or_some]

theorem lookup_declare_self (environment : Environment) (symbol : Symbol) :
    (lookup (declare environment symbol).2 symbol.name).isSome = true := by
  unfold lookup
  rw [List.find?_isSome]
  exact ⟨{ kind := .UNRESOLVED_SYMBOL, symbol := symbol, callptr := 0, arg_types := 0,
           section_ := 0 }, by simp [declare], by simp⟩

theorem lookup_resolve_c (environment : Environment) (n : String) (callptr : Nat)
    (name : String) :
    lookup (resolve_c environment n callptr) name =
      (lookup environment name).map (fun entry =>
        if entry.symbol.name = n then
          { entry with kind := .C_SYMBOL, callptr := callptr }
        else entry) := by
  rw [resolve_c_eq_map]
  unfold lookup
  rw [List.find?_map]
  congr 2
  funext entry
  simp only [Function.comp]
  split <;> rfl

theorem lookup_resolve_bc_same (environment environment' : Environment) (n : String)
    (define_section : Nat)
    (h : resolve_bc environment n define_section = some environment') :
    ∃ entry, lookup environment n = some entry ∧
      lookup environment' n = some (bindCode define_section entry) := by
  cases hl : lookup environment n with
  | none =>
    rw [(resolve_bc_eq_none environment n define_section).2 (lookup_eq_none.1 hl)] at h
    cases h
  | some entry =>
    obtain ⟨front, back, hsplit, hno, hname⟩ := lookup_split hl
    rw [resolve_bc_of_split environment n define_section front back entry hsplit hno hname] at h
    cases h
    refine ⟨entry, rfl, ?_⟩
    unfold lookup
    simp only [List.find?_append]
    have hfront : front.find? (fun entry => decide (entry.symbol.name = n)) = none := by
      rw [List.find?_eq_none]
      intro a ha
      simpa using hno a ha
    rw [hfront]
    simp [bindCode, hname]

theorem lookup_resolve_bc_other (environment environment' : Environment) (n : String)
    (define_section : Nat) (name : String)
    (h : resolve_bc environment n define_section = some environment') (hne : n ≠ name) :
    lookup environment' name = lookup environment name := by
  cases hl : lookup environment n with
  | none =>
    rw [(resolve_bc_eq_none environment n define_section).2 (lookup_eq_none.1 hl)] at h
    cases h
  | some entry =>
    obtain ⟨front, back, hsplit, hno, hname⟩ := lookup_split hl
    rw [resolve_bc_of_split environment n define_section front back entry hsplit hno hname] at h
    cases h
    unfold lookup
    rw [hsplit]
    have h1 : ¬ entry.symbol.name = name := by rw [hname]; exact hne
    simp [List.find?_append, List.find?_cons, bindCode, h1]

theorem run_append (environment : Environment) (a b : List Call) :
    run environment (a ++ b) = (run environment a).bind (fun e => run e b) := by
  induction a generalizing environment with
  | nil => rfl
  | cons c cs ih =>
    simp only [List.cons_append, run]
    cases c.apply environment with
    | none => rfl
    | some e => exact ih e

theorem apply_keeps_entry (c : Call) (environment environment' : Environment) (name : String)
    (entry : SymbolEntry) (h : c.apply environment = some environment')
    (hr : c.resolves name = false) (hl : lookup environment name = some entry) :
    lookup environment' name = some entry := by
  cases c with
  | declare symbol =>
    simp only [Call.apply, Option.some.injEq] at h
    rw [← h]
    exact lookup_declare environment symbol name entry hl
  | resolve_c n callptr =>
    simp only [Call.apply, Option.some.injEq] at h
    have hne : ¬ n = name := by simpa [Call.resolves] using hr
    obtain ⟨_, _, _, _, hname⟩ := lookup_split hl
    have hne2 : ¬ entry.symbol.name = n := by
      rw [hname]
      exact fun e => hne e.symm
    rw [← h, lookup_resolve_c, hl]
    simp [hne2]
  | resolve_bc n define_section =>
    simp only [Call.apply] at h
    have hne : ¬ n = name := by simpa [Call.resolves] using hr
    rw [lookup_resolve_bc_other environment environment' n define_section name h hne]
    exact hl

theorem apply_resolves (r : Call) (environment environment' : Environment) (name : String)
    (h : r.apply environment = some environment') (hr : r.resolves name = true)
    (hs : (lookup environment name).isSome = true) :
    ∃ entry, lookup environment' name = some entry ∧ r.boundIn entry = true := by
  cases r with
  | declare symbol => simp [Call.resolves] at hr
  | resolve_c n callptr =>
    simp only [Call.apply, Option.some.injEq] at h
    have hn : n = name := by simpa [Call.resolves] using hr
    subst hn
    obtain ⟨entry, hl⟩ := Option.isSome_iff_exists.1 hs
    obtain ⟨_, _, _, _, hname⟩ := lookup_split hl
    refine ⟨{ entry with kind := .C_SYMBOL, callptr := callptr }, ?_, by simp [Call.boundIn]⟩
    rw [← h, lookup_resolve_c, hl]
    simp [hname]
  | resolve_bc n define_section =>
    simp only [Call.apply] at h
    have hn : n = name := by simpa [Call.resolves] using hr
    subst hn
    obtain ⟨entry, _, hl'⟩ := lookup_resolve_bc_same environment environment' n define_section h
    exact ⟨_, hl', by simp [Call.boundIn, bindCode]⟩

theorem apply_keeps_declared (c : Call) (environment environment' : Environment) (name : String)
    (h : c.apply environment = some environment')
    (hs : (lookup environment name).isSome = true) :
    (lookup environment' name).isSome = true := by
  by_cases hr : c.resolves name = true
  · obtain ⟨entry, hl, _⟩ := apply_resolves c environment environment' name h hr hs
    rw [hl]
    rfl
  · obtain ⟨entry, hl⟩ := Option.isSome_iff_exists.1 hs
    rw [apply_keeps_entry c environment environment' name entry h (by simpa using hr) hl]
    rfl

theorem apply_declares (c : Call) (environment environment' : Environment) (name : String)
    (h : c.apply environment = some environment') (hd : c.declares name = true) :
    (lookup environment' name).isSome = true := by
  cases c with
  | declare symbol =>
    simp only [Call.apply, Option.some.injEq] at h
    have hn : symbol.name = name := by simpa [Call.declares] using hd
    rw [← h, ← hn]
    exact lookup_declare_self environment symbol
  | resolve_c n callptr => simp [Call.declares] at hd
  | resolve_bc n define_section => simp [Call.declares] at hd

theorem run_declared (calls : List Call) (environment environment' : Environment)
    (name : String) (hrun : run environment calls = some environment')
    (h : (lookup environment name).isSome = true ∨ ∃ c ∈ calls, c.declares name = true) :
    (lookup environment' name).isSome = true := by
  induction calls generalizing environment with
  | nil =>
    simp only [run, Option.some.injEq] at hrun
    rcases h with h | ⟨c, hc, _⟩
    · rw [← hrun]
      exact h
    · cases hc
  | cons c cs ih =>
    simp only [run] at hrun
    cases hc : c.apply environment with
    | none => simp [hc] at hrun
    | some e =>
      rw [hc] at hrun
      apply ih e hrun
      rcases h with h | ⟨d, hd, hdn⟩
      · exact Or.inl (apply_keeps_declared c environment e name hc h)
      · rcases List.mem_cons.1 hd with hdc | hdcs
        · subst hdc
          exact Or.inl (apply_declares d environment e name hc hdn)
        · exact Or.inr ⟨d, hdcs, hdn⟩

theorem run_keeps_entry (calls : List Call) (environment environment' : Environment)
    (name : String) (entry : SymbolEntry) (hrun : run environment calls = some environment')
    (hno : ∀ c ∈ calls, c.resolves name = false) (hl : lookup environment name = some entry) :
    lookup environment' name = some entry := by
  induction calls generalizing environment with
  | nil =>
    simp only [run, Option.some.injEq] at hrun
    rw [← hrun]
    exact hl
  | cons c cs ih =>
    simp only [run] at hrun
    cases hc : c.apply environment with
    | none => simp [hc] at hrun
    | some e =>
      rw [hc] at hrun
      exact ih e hrun (fun d hd => hno d (List.mem_cons_of_mem _ hd))
        (apply_keeps_entry c environment e name entry hc (hno c (List.mem_cons_self _ _)) hl)

/-- The binding seen after the last resolving call: when the name already has an entry at
the time of its most recent resolving call `r`, `find_symbol` returns an entry bound as
`r` binds it. -/
theorem find_symbol_after_last_resolve (environment0 : Environment) (pre post : List Call)
    (r : Call) (name : String)
    (hrun : (run environment0 (pre ++ r :: post)).isSome = true)
    (hdecl : (lookup environment0 name).isSome = true ∨ ∃ c ∈ pre, c.declares name = true)
    (hres : r.resolves name = true)
    (hpost : ∀ c ∈ post, c.resolves name = false) :
    ∃ (environment : Environment) (i : Nat) (entry : SymbolEntry),
      run environment0 (pre ++ r :: post) = some environment ∧
      find_symbol environment name = some (i, environment) ∧
      environment.entries[i]? = some entry ∧ r.boundIn entry = true := by
  obtain ⟨environment, henv⟩ := Option.isSome_iff_exists.1 hrun
  have h := henv
  rw [run_append] at h
  cases h1 : run environment0 pre with
  | none => simp [h1] at h
  | some environment1 =>
    rw [h1] at h
    simp only [Option.some_bind, run] at h
    cases h2 : r.apply environment1 with
    | none => simp [h2] at h
    | some environment2 =>
      rw [h2] at h
      have hs := run_declared pre environment0 environment1 name h1 hdecl
      obtain ⟨entry, hl, hb⟩ := apply_resolves r environment1 environment2 name h2 hres hs
      have hl2 := run_keeps_entry post environment2 environment name entry h hpost hl
      obtain ⟨i, hfind, hget⟩ := find_symbol_of_lookup hl2
      exact ⟨environment, i, entry, henv, hfind, hget, hb⟩

/-- A sequence that contains a resolving call for the name has a most recent one. -/
theorem exists_last_resolve (name : String) (calls : List Call)
    (h : ∃ c ∈ calls, c.resolves name = true) :
    ∃ (pre post : List Call) (r : Call), calls = pre ++ r :: post ∧
      r.resolves name = true ∧ ∀ c ∈ post, c.resolves name = false := by
  induction calls with
  | nil =>
    obtain ⟨c, hc, _⟩ := h
    cases hc
  | cons c cs ih =>
    by_cases hcs : ∃ d ∈ cs, d.resolves name = true
    · obtain ⟨pre, post, r, hsplit, hr, hpost⟩ := ih hcs
      exact ⟨c :: pre, post, r, by rw [hsplit]; rfl, hr, hpost⟩
    · have hc : c.resolves name = true := by
        obtain ⟨d, hd, hdr⟩ := h
        rcases List.mem_cons.1 hd with hdc | hdcs
        · rw [← hdc]
          exact hdr
        · exact absurd ⟨d, hdcs, hdr⟩ hcs
      refine ⟨[], cs, c, rfl, hc, ?_⟩
      intro d hd
      cases hdr : d.resolves name with
      | false => rfl
      | true => exact absurd ⟨d, hd, hdr⟩ hcs

/-- A declaration that precedes some resolving call for the name precedes the most recent
one. -/
theorem declared_before_last_resolve (name : String)
    (before between after pre post : List Call) (d r0 r : Call)
    (hsplit : before ++ d :: (between ++ r0 :: after) = pre ++ r :: post)
    (hr0 : r0.resolves name = true) (hpost : ∀ c ∈ post, c.resolves name = false) :
    d ∈ pre := by
  have hsplit2 : (before ++ d :: between) ++ r0 :: after = pre ++ r :: post := by
    rw [← hsplit]
    simp
  rcases List.append_eq_append_iff.1 hsplit2 with ⟨a, hpre, _⟩ | ⟨c, hL, hrest⟩
  · rw [hpre]
    simp
  · cases c with
    | nil =>
      simp only [List.append_nil] at hL
      rw [← hL]
      simp
    | cons x c2 =>
      simp only [List.cons_append, List.cons.injEq] at hrest
      have hmem : r0 ∈ post := by
        rw [hrest.2]
        simp
      have := hpost r0 hmem
      rw [hr0] at this
      cases this

/-- C10: take any sequence of `declare`, `resolve_c` and `resolve_bc` calls that runs to
completion (names may be declared several times) and a name that has been declared and
resolved at least once, that is, some resolving call for the name follows a declaration
of the name. Then the sequence has a most recent resolving call `r` for the name, and
`find_symbol` returns an entry whose kind and payload (`callptr` for `resolve_c`,
`section` for `resolve_bc`) are those bound by `r`. -/
theorem find_symbol_most_recent_binding (environment0 : Environment) (calls : List Call)
    (name : String)
    (hrun : (run environment0 calls).isSome = true)
    (hres : ∃ (before between after : List Call) (d r0 : Call),
      calls = before ++ d :: (between ++ r0 :: after) ∧
      d.declares name = true ∧ r0.resolves name = true) :
    ∃ (pre post : List Call) (r : Call) (environment : Environment) (i : Nat)
      (entry : SymbolEntry),
      calls = pre ++ r :: post ∧ r.resolves name = true ∧
      (∀ c ∈ post, c.resolves name = false) ∧
      run environment0 calls = some environment ∧
      find_symbol environment name = some (i, environment) ∧
      environment.entries[i]? = some entry ∧ r.boundIn entry = true := by
  obtain ⟨before, between, after, d, r0, hsplit0, hd, hr0⟩ := hres
  have hex : ∃ c ∈ calls, c.resolves name = true := by
    refine ⟨r0, ?_, hr0⟩
    rw [hsplit0]
    simp
  obtain ⟨pre, post, r, hsplit, hr, hpost⟩ := exists_last_resolve name calls hex
  have hdpre : d ∈ pre :=
    declared_before_last_resolve name before between after pre post d r0 r
      (by rw [← hsplit0, hsplit]) hr0 hpost
  subst hsplit
  obtain ⟨environment, i, entry, henv, hfind, hget, hb⟩ :=
    find_symbol_after_last_resolve environment0 pre post r name hrun
      (Or.inr ⟨d, hdpre, hd⟩) hr hpost
  exact ⟨pre, post, r, environment, i, entry, rfl, hr, hpost, henv, hfind, hget, hb⟩

/-- Witness of C10: "a" is declared twice, resolved natively with 7, then resolved to
compiled code with section 9, then "b" is declared; the most recent resolving call for "a"
exists and `find_symbol` for "a" returns an entry bound as that call binds it. -/
theorem find_symbol_most_recent_binding_witness :
    ∃ (pre post : List Call) (r : Call) (environment : Environment) (i : Nat)
      (entry : SymbolEntry),
      [Call.declare ⟨"a", 1000, 1⟩, .declare ⟨"a", 2000, 2⟩, .resolve_c "a" 7,
        .resolve_bc "a" 9, .declare ⟨"b", 3000, 0⟩] = pre ++ r :: post ∧
      r.resolves "a" = true ∧ (∀ c ∈ post, c.resolves "a" = false) ∧
      run { entries := [] }
        [Call.declare ⟨"a", 1000, 1⟩, .declare ⟨"a", 2000, 2⟩, .resolve_c "a" 7,
          .resolve_bc "a" 9, .declare ⟨"b", 3000, 0⟩] = some environment ∧
      find_symbol environment "a" = some (i, environment) ∧
      environment.entries[i]? = some entry ∧ r.boundIn entry = true :=
  find_symbol_most_recent_binding { entries := [] }
    [Call.declare ⟨"a", 1000, 1⟩, .declare ⟨"a", 2000, 2⟩, .resolve_c "a" 7,
      .resolve_bc "a" 9, .declare ⟨"b", 3000, 0⟩]
    "a" (by decide)
    ⟨[], [.declare ⟨"a", 2000, 2⟩], [.resolve_bc "a" 9, .declare ⟨"b", 3000, 0⟩],
      .declare ⟨"a", 1000, 1⟩, .resolve_c "a" 7, rfl, by decide, by decide⟩

/-! ## Reference counting: one call -/

theorem refcount_dec_mem (s : List CByte) (ptr : Nat) (m : Machine) :
    (neat_runtime_refcount_dec s ptr m).2.mem = Function.update m.mem ptr (wrap64 (m.mem ptr - 1)) := by
  unfold neat_runtime_refcount_dec
  simp only
  split <;> rfl

theorem refcount_dec_trace (s : List CByte) (ptr : Nat) (m : Machine) :
    (neat_runtime_refcount_dec s ptr m).2.trace =
      if wrap64 (m.mem ptr - 1) ≤ -1 then
        m.trace ++ [.violation s ptr (wrap64 (m.mem ptr - 1))]
      else m.trace := by
  unfold neat_runtime_refcount_dec
  simp only
  split
  · simp [neat_runtime_refcount_violation]
  · rfl

theorem refcount_inc_mem (s : List CByte) (ptr : Nat) (m : Machine) :
    (neat_runtime_refcount_inc s ptr m).mem = Function.update m.mem ptr (wrap64 (m.mem ptr + 1)) := by
  unfold neat_runtime_refcount_inc
  simp only
  split <;> rfl

theorem refcount_inc_trace (s : List CByte) (ptr : Nat) (m : Machine) :
    (neat_runtime_refcount_inc s ptr m).trace =
      if wrap64 (m.mem ptr + 1) ≤ 1 then
        m.trace ++ [.violation s ptr (wrap64 (m.mem ptr + 1))]
      else m.trace := by
  unfold neat_runtime_refcount_inc
  simp only
  split
  · simp [neat_runtime_refcount_violation]
  · rfl

/-- C11: for every counter value `neat_runtime_refcount_dec` stores the counter minus 1
(64-bit wraparound) and touches no other word, returns true if and only if the value after
the decrement is 0, and reports a violation if and only if the value after the decrement
is `<= -1`; on a counter that is already 0 it reports a violation, returns false and still
returns a state. -/
theorem refcount_dec_contract (s : List CByte) (ptr : Nat) (m : Machine) :
    (neat_runtime_refcount_dec s ptr m).2.mem ptr = wrap64 (m.mem ptr - 1) ∧
    (∀ a, a ≠ ptr → (neat_runtime_refcount_dec s ptr m).2.mem a = m.mem a) ∧
    ((neat_runtime_refcount_dec s ptr m).1 = true ↔
      (neat_runtime_refcount_dec s ptr m).2.mem ptr = 0) ∧
    (((neat_runtime_refcount_dec s ptr m).2.trace =
          m.trace ++ [.violation s ptr ((neat_runtime_refcount_dec s ptr m).2.mem ptr)] ∧
        (neat_runtime_refcount_dec s ptr m).2.mem ptr ≤ -1) ∨
      ((neat_runtime_refcount_dec s ptr m).2.trace = m.trace ∧
        ¬ (neat_runtime_refcount_dec s ptr m).2.mem ptr ≤ -1)) ∧
    (m.mem ptr = 0 →
      (neat_runtime_refcount_dec s ptr m).1 = false ∧
      (neat_runtime_refcount_dec s ptr m).2.mem ptr = -1 ∧
      (neat_runtime_refcount_dec s ptr m).2.trace = m.trace ++ [.violation s ptr (-1)]) := by
  have hmem : (neat_runtime_refcount_dec s ptr m).2.mem ptr = wrap64 (m.mem ptr - 1) := by
    rw [refcount_dec_mem]
    simp
  refine ⟨hmem, ?_, ?_, ?_, ?_⟩
  · intro a ha
    rw [refcount_dec_mem]
    simp [ha]
  · rw [hmem]
    simp [neat_runtime_refcount_dec]
  · rw [hmem, refcount_dec_trace]
    by_cases h : wrap64 (m.mem ptr - 1) ≤ -1
    · exact Or.inl ⟨by simp [h], h⟩
    · exact Or.inr ⟨by simp [h], h⟩
  · intro h0
    have hw : wrap64 (m.mem ptr - 1) = -1 := by
      rw [h0]
      decide
    refine ⟨?_, by rw [hmem, hw], ?_⟩
    · simp [neat_runtime_refcount_dec, hw]
    · rw [refcount_dec_trace, hw]
      simp

/-- Witness of C11: a decrement of the word at address 16 of an all-zero memory. -/
theorem refcount_dec_contract_witness :
    (neat_runtime_refcount_dec classTag 16 { mem := fun _ => 0, trace := [] }).1 = false ∧
    (neat_runtime_refcount_dec classTag 16 { mem := fun _ => 0, trace := [] }).2.mem 16 = -1 ∧
    (neat_runtime_refcount_dec classTag 16 { mem := fun _ => 0, trace := [] }).2.trace =
      [] ++ [.violation classTag 16 (-1)] :=
  (refcount_dec_contract classTag 16 { mem := fun _ => 0, trace := [] }).2.2.2.2 rfl

/-- C12 (as amended): for every counter value below the maximum `2^63 - 1`,
`neat_runtime_refcount_inc` leaves the counter one higher, touches no other word, and
reports a violation if and only if the counter was `<= 0` before the call; it always
returns a state. -/
theorem refcount_inc_contract (s : List CByte) (ptr : Nat) (m : Machine)
    (hrange : IsI64 (m.mem ptr)) (hmax : m.mem ptr < 2 ^ 63 - 1) :
    (neat_runtime_refcount_inc s ptr m).mem ptr = m.mem ptr + 1 ∧
    (∀ a, a ≠ ptr → (neat_runtime_refcount_inc s ptr m).mem a = m.mem a) ∧
    (((neat_runtime_refcount_inc s ptr m).trace =
          m.trace ++ [.violation s ptr (m.mem ptr + 1)] ∧ m.mem ptr ≤ 0) ∨
      ((neat_runtime_refcount_inc s ptr m).trace = m.trace ∧ ¬ m.mem ptr ≤ 0)) := by
  have hw : wrap64 (m.mem ptr + 1) = m.mem ptr + 1 := by
    apply wrap64_of_isI64
    unfold IsI64 at hrange ⊢
    constructor <;> linarith [hrange.1, hrange.2]
  refine ⟨?_, ?_, ?_⟩
  · rw [refcount_inc_mem, hw]
    simp
  · intro a ha
    rw [refcount_inc_mem]
    simp [ha]
  · rw [refcount_inc_trace, hw]
    by_cases h : m.mem ptr ≤ 0
    · have h1 : m.mem ptr + 1 ≤ 1 := by linarith
      exact Or.inl ⟨by simp [h1], h⟩
    · have h1 : ¬ m.mem ptr + 1 ≤ 1 := by
        intro hc
        exact h (by linarith)
      exact Or.inr ⟨by simp [h1], h⟩

/-- Witness of C12 (as amended): an increment of a counter that holds 0. -/
theorem refcount_inc_contract_witness :
    (neat_runtime_refcount_inc classTag 16 { mem := fun _ => 0, trace := [] }).mem 16 = 0 + 1 ∧
    (neat_runtime_refcount_inc classTag 16 { mem := fun _ => 0, trace := [] }).trace ≠ [] := by
  obtain ⟨h1, _, h3⟩ := refcount_inc_contract classTag 16 { mem := fun _ => 0, trace := [] }
    (by decide) (by decide)
  refine ⟨h1, ?_⟩
  rcases h3 with ⟨ht, _⟩ | ⟨_, hn⟩
  · rw [ht]
    simp
  · exact absurd (le_refl (0 : Int)) hn

/-- C12 (counterexample): on a counter that holds the maximum `2^63 - 1`, which is not
`<= 0`, the increment wraps to `-2^63`, so the counter is not one higher, and a violation
is reported. -/
theorem refcount_inc_max_counterexample :
    ¬ ((fun _ => 9223372036854775807 : Nat → Int) 16 ≤ 0) ∧
    (neat_runtime_refcount_inc classTag 16
      { mem := fun _ => 9223372036854775807, trace := [] }).mem 16 = -9223372036854775808 ∧
    (neat_runtime_refcount_inc classTag 16
      { mem := fun _ => 9223372036854775807, trace := [] }).trace =
        [.violation classTag 16 (-9223372036854775808)] := by
  decide

/-! ## Reference counting: sequences of calls -/

theorem refcount_inc_times_spec (s : List CByte) (ptr : Nat) (m : Machine) (k : Nat)
    (hlow : 1 ≤ m.mem ptr) (hhigh : m.mem ptr + k < 2 ^ 63) :
    (refcount_inc_times s ptr k m).mem ptr = m.mem ptr + k ∧
    (refcount_inc_times s ptr k m).trace = m.trace := by
  induction k with
  | zero => simp [refcount_inc_times]
  | succ k ih =>
    obtain ⟨ihmem, ihtrace⟩ := ih (by push_cast at hhigh; linarith)
    push_cast at hhigh
    have hk : (0 : Int) ≤ k := Int.natCast_nonneg k
    have hw : wrap64 (m.mem ptr + k + 1) = m.mem ptr + k + 1 := by
      apply wrap64_of_isI64
      constructor <;> linarith
    simp only [refcount_inc_times]
    constructor
    · rw [refcount_inc_mem, ihmem, hw]
      simp
      ring
    · rw [refcount_inc_trace, ihmem, hw, ihtrace]
      have : ¬ m.mem ptr + k + 1 ≤ 1 := by
        intro hc
        linarith
      simp [this]

theorem refcount_dec_times_spec (s : List CByte) (ptr : Nat) (m : Machine) (k : Nat)
    (hlow : (k : Int) < m.mem ptr) (hhigh : m.mem ptr < 2 ^ 63) :
    (refcount_dec_times s ptr k m).1 = List.replicate k false ∧
    (refcount_dec_times s ptr k m).2.mem ptr = m.mem ptr - k ∧
    (refcount_dec_times s ptr k m).2.trace = m.trace := by
  induction k with
  | zero => simp [refcount_dec_times]
  | succ k ih =>
    push_cast at hlow
    obtain ⟨ihres, ihmem, ihtrace⟩ := ih (by linarith)
    have hk : (0 : Int) ≤ k := Int.natCast_nonneg k
    have hw : wrap64 (m.mem ptr - k - 1) = m.mem ptr - k - 1 := by
      apply wrap64_of_isI64
      constructor <;> linarith
    simp only [refcount_dec_times]
    refine ⟨?_, ?_, ?_⟩
    · rw [ihres, List.replicate_succ']
      congr 2
      simp only [neat_runtime_refcount_dec, ihmem, hw]
      apply decide_eq_false
      intro hc
      linarith
    · rw [refcount_dec_mem, ihmem, hw]
      simp
      ring
    · rw [refcount_dec_trace, ihmem, hw, ihtrace]
      have : ¬ m.mem ptr - k - 1 ≤ -1 := by
        intro hc
        linarith
      simp [this]

/-- C13 (as amended): for every `k` with `k + 1 < 2^63`, on a counter seeded with
`neat_runtime_refcount_set(1)`, `k` increments followed by `k + 1` decrements report no
violation, the first `k` decrements return false and the last returns true, and the
counter ends at 0. -/
theorem refcount_lifecycle (s : List CByte) (ptr : Nat) (m : Machine) (k : Nat)
    (hk : k + 1 < 2 ^ 63) :
    (refcount_dec_times s ptr (k + 1)
      (refcount_inc_times s ptr k (neat_runtime_refcount_set ptr 1 m))).1 =
        List.replicate k false ++ [true] ∧
    (refcount_inc_times s ptr k (neat_runtime_refcount_set ptr 1 m)).trace = m.trace ∧
    (refcount_dec_times s ptr (k + 1)
      (refcount_inc_times s ptr k (neat_runtime_refcount_set ptr 1 m))).2.trace = m.trace ∧
    (refcount_dec_times s ptr (k + 1)
      (refcount_inc_times s ptr k (neat_runtime_refcount_set ptr 1 m))).2.mem ptr = 0 := by
  have hset : (neat_runtime_refcount_set ptr 1 m).mem ptr = 1 := by
    simp only [neat_runtime_refcount_set, Function.update_same]
    decide
  have hk2 : ((k : Nat) : Int) + 1 < 2 ^ 63 := by exact_mod_cast hk
  obtain ⟨hmem1, htrace1⟩ := refcount_inc_times_spec s ptr (neat_runtime_refcount_set ptr 1 m) k
    (by rw [hset]) (by rw [hset]; linarith)
  rw [hset] at hmem1
  have htrace1' : (refcount_inc_times s ptr k (neat_runtime_refcount_set ptr 1 m)).trace =
      m.trace := by
    rw [htrace1]
    rfl
  obtain ⟨hres2, hmem2, htrace2⟩ := refcount_dec_times_spec s ptr
    (refcount_inc_times s ptr k (neat_runtime_refcount_set ptr 1 m)) k
    (by rw [hmem1]; linarith) (by rw [hmem1]; linarith)
  rw [hmem1] at hmem2
  have hlast : (1 : Int) + k - k - 1 = 0 := by ring
  have hw : wrap64 ((1 : Int) + k - k - 1) = 0 := by
    rw [hlast]
    decide
  simp only [refcount_dec_times]
  refine ⟨?_, htrace1', ?_, ?_⟩
  · rw [hres2]
    congr 2
    simp only [neat_runtime_refcount_dec, hmem2, hw]
    rfl
  · rw [refcount_dec_trace, hmem2, hw, htrace2, htrace1']
    simp
  · rw [refcount_dec_mem, hmem2, hw]
    simp

/-- Witness of C13 (as amended) for `k = 1`: the two decrements return `(false, true)` and
nothing is reported. -/
theorem refcount_lifecycle_witness :
    (refcount_dec_times classTag 16 (1 + 1)
      (refcount_inc_times classTag 16 1
        (neat_runtime_refcount_set 16 1 { mem := fun _ => 0, trace := [] }))).1 =
        [false, true] ∧
    (refcount_dec_times classTag 16 (1 + 1)
      (refcount_inc_times classTag 16 1
        (neat_runtime_refcount_set 16 1 { mem := fun _ => 0, trace := [] }))).2.trace = [] :=
  ⟨(refcount_lifecycle classTag 16 { mem := fun _ => 0, trace := [] } 1 (by decide)).1,
    (refcount_lifecycle classTag 16 { mem := fun _ => 0, trace := [] } 1 (by decide)).2.2.1⟩

/-- C13 (counterexample): for `k = 2^63 - 1` the counter seeded with 1 reaches the maximum
after `k - 1` increments, the last increment wraps to `-2^63`, and a violation is
reported. -/
theorem refcount_lifecycle_overflow_counterexample :
    (refcount_inc_times classTag 16 9223372036854775807
      (neat_runtime_refcount_set 16 1 { mem := fun _ => 0, trace := [] })).trace =
        [.violation classTag 16 (-9223372036854775808)] := by
  have hset : (neat_runtime_refcount_set 16 1 { mem := fun _ => 0, trace := [] }).mem 16 = 1 := by
    decide
  obtain ⟨hmem, htrace⟩ := refcount_inc_times_spec classTag 16
    (neat_runtime_refcount_set 16 1 { mem := fun _ => 0, trace := [] }) 9223372036854775806
    (by rw [hset]) (by rw [hset]; norm_num)
  rw [hset] at hmem
  have hsucc : (9223372036854775807 : Nat) = 9223372036854775806 + 1 := by norm_num
  rw [hsucc, refcount_inc_times, refcount_inc_trace, hmem, htrace]
  have hw : wrap64 (1 + ((9223372036854775806 : Nat) : Int) + 1) = -9223372036854775808 := by
    decide
  rw [hw]
  simp [neat_runtime_refcount_set]

/-! ## Reference counting of class instances -/

theorem refcount_dec_result (s : List CByte) (ptr : Nat) (m : Machine) :
    (neat_runtime_refcount_dec s ptr m).1 = decide (wrap64 (m.mem ptr - 1) = 0) := by
  simp [neat_runtime_refcount_dec]

/-- C14: both class routines return the machine untouched for a null instance pointer.
For a non-null instance `neat_runtime_class_refcount_dec` decrements the counter in the
second word of the instance; when the decrement reaches 0 it calls the function found in
slot 1 of the virtual table with the instance pointer and then calls `free` on the
instance, in that order; when the decrement does not reach 0 the machine is the one left by
the decrement, whose trace has at most a violation report appended: no call and no
`free`. -/
theorem class_refcount_contract (exec : Int → Nat → (Nat → Int) → (Nat → Int)) (ptr : Nat)
    (m : Machine) :
    neat_runtime_class_refcount_inc 0 m = m ∧
    neat_runtime_class_refcount_dec exec 0 m = m ∧
    (ptr ≠ 0 → wrap64 (m.mem (ptr + 8) - 1) = 0 →
      (neat_runtime_class_refcount_dec exec ptr m).trace =
        m.trace ++ [.call ((Function.update m.mem (ptr + 8) 0)
          (addrOf (m.mem ptr) + 8)) ptr, .free ptr] ∧
      (neat_runtime_class_refcount_dec exec ptr m).mem =
        exec ((Function.update m.mem (ptr + 8) 0) (addrOf (m.mem ptr) + 8)) ptr
          (Function.update m.mem (ptr + 8) 0) ∧
      (addrOf (m.mem ptr) ≠ ptr →
        (Function.update m.mem (ptr + 8) 0) (addrOf (m.mem ptr) + 8) =
          m.mem (addrOf (m.mem ptr) + 8))) ∧
    (ptr ≠ 0 → wrap64 (m.mem (ptr + 8) - 1) ≠ 0 →
      (neat_runtime_class_refcount_dec exec ptr m).mem =
        Function.update m.mem (ptr + 8) (wrap64 (m.mem (ptr + 8) - 1)) ∧
      ((neat_runtime_class_refcount_dec exec ptr m).trace = m.trace ∨
        (neat_runtime_class_refcount_dec exec ptr m).trace =
          m.trace ++ [.violation classTag (ptr + 8) (wrap64 (m.mem (ptr + 8) - 1))])) := by
  refine ⟨by simp [neat_runtime_class_refcount_inc],
    by simp [neat_runtime_class_refcount_dec], ?_, ?_⟩
  · intro hptr hzero
    have hne : ptr ≠ ptr + 8 := by omega
    have hmemptr : (Function.update m.mem (ptr + 8) (0 : Int)) ptr = m.mem ptr := by
      simp [Function.update, hne]
    have hnv : ¬ ((0 : Int) ≤ -1) := by decide
    unfold neat_runtime_class_refcount_dec
    simp only [hptr, if_false, refcount_dec_result, hzero, decide_True, if_true,
      refcount_dec_mem, refcount_dec_trace, hmemptr, hnv, List.append_assoc,
      List.singleton_append]
    refine ⟨trivial, trivial, ?_⟩
    intro hvt
    have : addrOf (m.mem ptr) + 8 ≠ ptr + 8 := by omega
    simp [Function.update, this]
  · intro hptr hnz
    unfold neat_runtime_class_refcount_dec
    simp only [hptr, if_false, refcount_dec_result, hnz, decide_False, Bool.false_eq_true]
    refine ⟨refcount_dec_mem classTag (ptr + 8) m, ?_⟩
    rw [refcount_dec_trace]
    by_cases hv : wrap64 (m.mem (ptr + 8) - 1) ≤ -1
    · exact Or.inr (by simp [hv])
    · exact Or.inl (by simp [hv])

/-- Witness of C14: an instance at address 100 whose virtual table is at 200, whose
counter holds 1 and whose destructor slot holds 777; the decrement reaches 0, the trace is
the call of 777 on the instance followed by `free`. -/
theorem class_refcount_contract_witness :
    (neat_runtime_class_refcount_dec (fun _ _ mem => mem) 100
      { mem := fun a => if a = 100 then 200 else if a = 108 then 1 else
                if a = 208 then 777 else 0,
        trace := [] }).trace = [.call 777 100, .free 100] := by
  have h := ((class_refcount_contract (fun _ _ mem => mem) 100
      { mem := fun a => if a = 100 then 200 else if a = 108 then 1 else
                if a = 208 then 777 else 0,
        trace := [] }).2.2.1 (by decide) (by decide)).1
  rw [h]
  decide

/-! ## FNV hash -/

theorem foldl_range_getD {α : Type} (f : α → CByte → α) (s : List CByte) (a : α) :
    (List.range s.length).foldl (fun acc i => f acc (s.getD i 0)) a = s.foldl f a := by
  induction s using List.reverseRecOn with
  | nil => rfl
  | append_singleton s c ih =>
    rw [List.length_append, List.length_singleton, List.range_succ, List.foldl_append,
      List.foldl_append]
    simp only [List.foldl_cons, List.foldl_nil]
    have h1 : (List.range s.length).foldl (fun acc i => f acc ((s ++ [c]).getD i 0)) a =
        (List.range s.length).foldl (fun acc i => f acc (s.getD i 0)) a := by
      apply List.foldl_ext
      intro acc i hi
      rw [List.getD_append _ _ _ _ (List.mem_range.1 hi)]
    rw [h1, ih, List.getD_append_right _ _ _ _ (le_refl _)]
    simp

theorem fnv_add_string_eq_foldl (sgn : Bool) (h : Int) (s : List CByte) :
    fnv_add_string sgn h s =
      s.foldl (fun acc b => wrap64 (xor64 acc (charVal sgn b) * 1099511628211)) h :=
  foldl_range_getD (fun acc b => wrap64 (xor64 acc (charVal sgn b) * 1099511628211)) s h

/-- Where plain `char` is unsigned the loop is the fold of the specification. -/
theorem fnv_add_string_unsigned (h : Int) (s : List CByte) :
    fnv_add_string false h s = fnv_fold h s := by
  rw [fnv_add_string_eq_foldl]
  rfl

/-- Feeding `A` and then `B` is feeding `A ++ B`, whatever the signedness of `char`. -/
theorem fnv_add_string_append (sgn : Bool) (h : Int) (A B : List CByte) :
    fnv_add_string sgn (fnv_add_string sgn h A) B = fnv_add_string sgn h (A ++ B) := by
  simp only [fnv_add_string_eq_foldl, List.foldl_append]

/-- C15 (failing input): where plain `char` is signed, feeding the single byte `0x80` to
the seeded accumulator XORs the sign-extended value `-128` into it, which flips the upper
56 bits as well; the fold over byte values `0..255` of the specification gives another
accumulator, and so does `fnv_add_long`, which masks with `0xff`. The seed is the offset
constant as a 64-bit pattern. -/
theorem fnv_add_string_signed_char_divergence :
    toU64 fnv_init = 14695981039346656037 ∧
    fnv_add_string true fnv_init [128] = 5808531584386460767 ∧
    fnv_fold fnv_init [128] = -5808450220525973153 ∧
    fnv_add_string false fnv_init [128] = -5808450220525973153 ∧
    fnv_add_long fnv_init 128 = fnv_fold fnv_init (le_bytes 128) ∧
    fnv_add_string true fnv_init [128] ≠ fnv_fold fnv_init [128] := by
  decide

/-! ## Hexadecimal export -/

theorem format_llX_length (prec : Nat) (value : Int) :
    prec ≤ (format_llX prec value).length ∧ (format_llX prec value).length ≤ max prec 16 := by
  unfold format_llX
  simp only [List.length_map, List.length_append, List.length_replicate]
  have h : ((nibbles (toU64 value)).dropWhile (fun d => d == 0)).length ≤ 16 := by
    have h1 := (List.dropWhile_sublist (fun d => d == 0) (l := nibbles (toU64 value))).length_le
    have h2 : (nibbles (toU64 value)).length = 16 := by simp [nibbles]
    omega
  omega

/-- The export of `fnv_hex_value` always has eight characters. -/
theorem fnv_hex_value_length (state : Int) :
    (fnv_hex_value state).length = 8 ∧ (fnv_hex_value state).ptr.length = 8 := by
  refine ⟨rfl, ?_⟩
  have h := (format_llX_length 8 state).1
  simp only [fnv_hex_value, snprintf_llX, List.length_take]
  omega

/-- The export of `poly_hex_value` has between eight and sixteen characters, all of them
stored in the buffer. -/
theorem poly_hex_value_length_bounds (state : PolyHashState) :
    8 ≤ (poly_hex_value state).length ∧ (poly_hex_value state).length ≤ 16 ∧
    (poly_hex_value state).ptr.length = (poly_hex_value state).length := by
  have h := format_llX_length 8 state.add
  simp only [poly_hex_value, snprintf_llX, string_alloc_length, List.length_take]
  omega

/-- C16 (failing input): `poly_hex_value` passes the precision 8 for a 17-byte buffer, so
the exported string has as many digits as the value needs, at least 8: the states with
`add = 1`, `add = 2^32` and `add = -1` export `00000001`, `100000000` and sixteen `F`, of
lengths 8, 9 and 16. -/
theorem poly_hex_value_length_varies :
    poly_hex_value { add := 1, mult := 1 } =
      { length := 8, ptr := [48, 48, 48, 48, 48, 48, 48, 49] } ∧
    poly_hex_value { add := 4294967296, mult := 1 } =
      { length := 9, ptr := [49, 48, 48, 48, 48, 48, 48, 48, 48] } ∧
    (poly_hex_value { add := -1, mult := 1 }).length = 16 ∧
    (poly_hex_value { add := 1, mult := 1 }).length ≠
      (poly_hex_value { add := 4294967296, mult := 1 }).length := by
  decide

/-- C17 (failing input): `fnv_hex_value` always returns length 8, but `snprintf` is given
the size 9 and the precision 8, so only the first eight characters of the conversion are
kept: the accumulators `0x100000000` and `0x10000000` both export `10000000`. -/
theorem fnv_hex_value_collision :
    fnv_hex_value 4294967296 = { length := 8, ptr := [49, 48, 48, 48, 48, 48, 48, 48] } ∧
    fnv_hex_value 268435456 = { length := 8, ptr := [49, 48, 48, 48, 48, 48, 48, 48] } ∧
    fnv_hex_value 4294967296 = fnv_hex_value 268435456 ∧
    (4294967296 : Int) ≠ 268435456 ∧
    format_llX 16 4294967296 =
      [48, 48, 48, 48, 48, 48, 48, 49, 48, 48, 48, 48, 48, 48, 48, 48] := by
  decide

/-! ## The linkage table: what later calls do to a resolved entry -/

theorem resolve_bc_eq_set (environment environment' : Environment) (n : String)
    (define_section : Nat)
    (h : resolve_bc environment n define_section = some environment') :
    ∃ (i0 : Nat) (e0 : SymbolEntry), environment.entries[i0]? = some e0 ∧
      e0.symbol.name = n ∧
      environment' = { entries := environment.entries.set i0 (bindCode define_section e0) } := by
  cases hl : lookup environment n with
  | none =>
    rw [(resolve_bc_eq_none environment n define_section).2 (lookup_eq_none.1 hl)] at h
    cases h
  | some e0 =>
    obtain ⟨front, back, hsplit, hno, hname⟩ := lookup_split hl
    obtain ⟨hfind, hget⟩ := find_symbol_of_split environment n front back e0 hsplit hno hname
    rw [resolve_bc_of_find environment n define_section front.length e0 hfind hget] at h
    simp only [Option.some.injEq] at h
    exact ⟨front.length, e0, hget, hname, h.symm⟩

theorem apply_entry_step (c : Call) (environment environment' : Environment) (i : Nat)
    (entry : SymbolEntry) (h : c.apply environment = some environment')
    (hentry : environment.entries[i]? = some entry) :
    ∃ entry' : SymbolEntry, environment'.entries[i]? = some entry' ∧
      entry'.symbol = entry.symbol ∧
      (entry.kind ≠ .UNRESOLVED_SYMBOL → entry'.kind ≠ .UNRESOLVED_SYMBOL) ∧
      (c.resolves entry.symbol.name = false → entry' = entry) := by
  have hi : i < environment.entries.length := by
    rcases Nat.lt_or_ge i environment.entries.length with hlt | hge
    · exact hlt
    · rw [List.getElem?_eq_none hge] at hentry
      cases hentry
  cases c with
  | declare symbol =>
    simp only [Call.apply, Option.some.injEq] at h
    refine ⟨entry, ?_, rfl, fun hk => hk, fun _ => rfl⟩
    rw [← h]
    simp only [declare]
    rw [List.getElem?_append_left hi]
    exact hentry
  | resolve_c n callptr =>
    simp only [Call.apply, Option.some.injEq] at h
    rw [resolve_c_eq_map] at h
    by_cases hn : entry.symbol.name = n
    · refine ⟨{ entry with kind := .C_SYMBOL, callptr := callptr }, ?_, rfl, ?_, ?_⟩
      · rw [← h]
        simp [List.getElem?_map, hentry, hn]
      · intro _ hc
        cases hc
      · intro hr
        simp [Call.resolves, hn] at hr
    · refine ⟨entry, ?_, rfl, fun hk => hk, fun _ => rfl⟩
      rw [← h]
      simp [List.getElem?_map, hentry, hn]
  | resolve_bc n define_section =>
    simp only [Call.apply] at h
    obtain ⟨i0, e0, hget0, hname0, henv⟩ := resolve_bc_eq_set environment environment' n
      define_section h
    by_cases hii : i0 = i
    · subst hii
      have he : e0 = entry := by
        rw [hget0] at hentry
        exact Option.some.inj hentry
      subst he
      refine ⟨bindCode define_section e0, ?_, rfl, ?_, ?_⟩
      · rw [henv]
        simp [List.getElem?_set, hi]
      · intro _ hc
        simp [bindCode] at hc
      · intro hr
        simp [Call.resolves, hname0] at hr
    · refine ⟨entry, ?_, rfl, fun hk => hk, fun _ => rfl⟩
      rw [henv]
      simp [List.getElem?_set, hii, hentry]

/-- C18 (as amended): along every sequence of `declare`, `resolve_c` and `resolve_bc`
calls that runs to completion, an entry that has kind `C_SYMBOL` or `BC_SYMBOL` stays at
its index, keeps its symbol and never returns to `UNRESOLVED_SYMBOL`, and it keeps its kind
and payload as long as no later `resolve_c` or `resolve_bc` call is made for its name. -/
theorem resolved_entry_stable (calls : List Call) (environment environment' : Environment)
    (i : Nat) (entry : SymbolEntry)
    (hrun : run environment calls = some environment')
    (hentry : environment.entries[i]? = some entry)
    (hkind : entry.kind ≠ .UNRESOLVED_SYMBOL) :
    ∃ entry' : SymbolEntry, environment'.entries[i]? = some entry' ∧
      entry'.symbol = entry.symbol ∧ entry'.kind ≠ .UNRESOLVED_SYMBOL ∧
      ((∀ c ∈ calls, c.resolves entry.symbol.name = false) → entry' = entry) := by
  induction calls generalizing environment entry with
  | nil =>
    simp only [run, Option.some.injEq] at hrun
    rw [← hrun]
    exact ⟨entry, hentry, rfl, hkind, fun _ => rfl⟩
  | cons c cs ih =>
    simp only [run] at hrun
    cases hc : c.apply environment with
    | none => simp [hc] at hrun
    | some e1 =>
      rw [hc] at hrun
      obtain ⟨entry1, hget1, hsym1, hk1, hsame1⟩ := apply_entry_step c environment e1 i entry
        hc hentry
      obtain ⟨entry2, hget2, hsym2, hk2, hsame2⟩ := ih e1 entry1 hrun hget1 (hk1 hkind)
      refine ⟨entry2, hget2, hsym2.trans hsym1, hk2, ?_⟩
      intro hall
      have h1 : entry1 = entry := hsame1 (hall c (List.mem_cons_self _ _))
      subst h1
      exact hsame2 (fun d hd => hall d (List.mem_cons_of_mem _ hd))

/-- Witness of C18 (as amended): "a" is declared and bound natively to 7; declaring "b"
and binding "b" to compiled code leaves the entry of "a" as it was. -/
theorem resolved_entry_stable_witness :
    ∃ entry' : SymbolEntry,
      ({ entries :=
          [{ kind := .C_SYMBOL, symbol := ⟨"a", 1000, 0⟩, callptr := 7, arg_types := 0,
             section_ := 0 },
           { kind := .BC_SYMBOL, symbol := ⟨"b", 2000, 0⟩, callptr := 0, arg_types := 2008,
             section_ := 5 }] } : Environment).entries[0]? = some entry' ∧
      entry'.symbol = (⟨"a", 1000, 0⟩ : Symbol) ∧ entry'.kind ≠ .UNRESOLVED_SYMBOL ∧
      ((∀ c ∈ [Call.declare ⟨"b", 2000, 0⟩, Call.resolve_bc "b" 5],
          c.resolves "a" = false) →
        entry' = { kind := .C_SYMBOL, symbol := ⟨"a", 1000, 0⟩, callptr := 7, arg_types := 0,
                   section_ := 0 }) :=
  resolved_entry_stable [Call.declare ⟨"b", 2000, 0⟩, Call.resolve_bc "b" 5]
    { entries := [{ kind := .C_SYMBOL, symbol := ⟨"a", 1000, 0⟩, callptr := 7, arg_types := 0,
                    section_ := 0 }] }
    _ 0
    { kind := .C_SYMBOL, symbol := ⟨"a", 1000, 0⟩, callptr := 7, arg_types := 0, section_ := 0 }
    (by decide) rfl (by decide)

/-- C18 (counterexample): after `declare("a")` and `resolve_c("a", 7)` entry 0 is
`C_SYMBOL` with `callptr = 7`; a second `resolve_c("a", 8)` changes its payload to 8, and
`resolve_bc("a", 5)` changes its kind to `BC_SYMBOL`. -/
theorem resolved_entry_rebound_counterexample :
    run { entries := [] } [.declare ⟨"a", 1000, 0⟩, .resolve_c "a" 7] =
      some { entries := [{ kind := .C_SYMBOL, symbol := ⟨"a", 1000, 0⟩, callptr := 7,
                           arg_types := 0, section_ := 0 }] } ∧
    run { entries := [] } [.declare ⟨"a", 1000, 0⟩, .resolve_c "a" 7, .resolve_c "a" 8] =
      some { entries := [{ kind := .C_SYMBOL, symbol := ⟨"a", 1000, 0⟩, callptr := 8,
                           arg_types := 0, section_ := 0 }] } ∧
    run { entries := [] } [.declare ⟨"a", 1000, 0⟩, .resolve_c "a" 7, .resolve_bc "a" 5] =
      some { entries := [{ kind := .BC_SYMBOL, symbol := ⟨"a", 1000, 0⟩, callptr := 7,
                           arg_types := 1008, section_ := 5 }] } := by
  decide

/-! ## Order of combination and repeated feeding -/

theorem wrap64_eq_iff_dvd (x y : Int) : wrap64 x = wrap64 y ↔ (2 ^ 64 : Int) ∣ (x - y) := by
  have hcast : (2 ^ 64 : Int) = (((2 ^ 64 : Nat) : Nat) : Int) := by norm_num
  rw [hcast, ← ZMod.intCast_zmod_eq_zero_iff_dvd, Int.cast_sub, sub_eq_zero]
  constructor
  · intro h
    have := congrArg (fun z : Int => (z : ZMod (2 ^ 64))) h
    simpa only [wrap64_cast] using this
  · exact wrap64_congr

/-- C19 (as amended): combination is commutative in the `mult` field only: for all
states the two orders give the same `mult`, while the `add` fields agree exactly when
`a.add * (b.mult - 1) - b.add * (a.mult - 1)` is divisible by `2^64`. -/
theorem poly_apply_hash_mult_comm (a b : PolyHashState) :
    (poly_apply_hash a b).mult = (poly_apply_hash b a).mult ∧
    ((poly_apply_hash a b).add = (poly_apply_hash b a).add ↔
      (2 ^ 64 : Int) ∣ (a.add * (b.mult - 1) - b.add * (a.mult - 1))) := by
  simp only [poly_apply_hash_eq]
  refine ⟨by rw [mul_comm], ?_⟩
  rw [wrap64_eq_iff_dvd]
  have e : a.add * b.mult + b.add - (b.add * a.mult + a.add) =
      a.add * (b.mult - 1) - b.add * (a.mult - 1) := by ring
  rw [e]

/-- C19 (counterexample): composing the hash of "h" with the hash of "i" gives the hash of
"hi", with `add = 104 * P + 105`; the other order gives the hash of "ih", with
`add = 105 * P + 104`. -/
theorem poly_apply_hash_not_comm_counterexample :
    poly_apply_hash (poly_hash_string true [104]) (poly_hash_string true [105]) =
      { add := 114349209334049, mult := 956575116354345 } ∧
    poly_apply_hash (poly_hash_string true [105]) (poly_hash_string true [104]) =
      { add := 115448720962259, mult := 956575116354345 } ∧
    ¬ (∀ a b : PolyHashState, poly_apply_hash a b = poly_apply_hash b a) := by
  refine ⟨by decide, by decide, ?_⟩
  intro hall
  exact absurd (hall (poly_hash_string true [104]) (poly_hash_string true [105])) (by decide)

/-! ## Repeated feeding, the whole-string hash and the overflow rule -/

theorem checked64_eq_some {x v : Int} (h : checked64 x = some v) : v = x ∧ IsI64 x := by
  unfold checked64 at h
  split at h
  · rename_i hx
    exact ⟨(Option.some.inj h).symm, hx⟩
  · cases h

theorem checked64_of_isI64 {x : Int} (h : IsI64 x) : checked64 x = some x := by
  simp [checked64, h]

theorem checked64_of_not_isI64 {x : Int} (h : ¬ IsI64 x) : checked64 x = none := by
  simp [checked64, h]

/-- Where no signed operation overflows, the composition is the wraparound one. -/
theorem poly_apply_hash_strict_sound (left right t : PolyHashState)
    (h : poly_apply_hash_strict left right = some t) : t = poly_apply_hash left right := by
  unfold poly_apply_hash_strict at h
  cases h1 : checked64 (left.add * right.mult) with
  | none => simp [h1] at h
  | some prod =>
    cases h2 : checked64 (prod + right.add) with
    | none => simp [h1, h2] at h
    | some add =>
      cases h3 : checked64 (left.mult * right.mult) with
      | none => simp [h1, h2, h3] at h
      | some mult =>
        simp only [h1, h2, h3, Option.some_bind, Option.some.injEq] at h
        obtain ⟨e1, r1⟩ := checked64_eq_some h1
        obtain ⟨e2, r2⟩ := checked64_eq_some h2
        obtain ⟨e3, r3⟩ := checked64_eq_some h3
        rw [← h]
        unfold poly_apply_hash
        rw [wrap64_of_isI64 r1, ← e1, wrap64_of_isI64 r2, wrap64_of_isI64 r3, ← e2, ← e3]

theorem poly_hash_string_strict_step_sound (sgn : Bool) (s : List CByte)
    (r : Option PolyHashState) (r0 : PolyHashState) (i : Nat) (t : PolyHashState)
    (hr : ∀ t0, r = some t0 → t0 = r0)
    (h : poly_hash_string_strict_step sgn s r i = some t) :
    t = poly_hash_string_step sgn s r0 i := by
  unfold poly_hash_string_strict_step at h
  cases hres : r with
  | none => simp [hres] at h
  | some t0 =>
    have ht0 := hr t0 hres
    subst ht0
    rw [hres] at h
    simp only [Option.some_bind] at h
    cases h1 : checked64 (charVal sgn (s.getD (s.length - 1 - i) 0) * t0.mult) with
    | none =>
      rw [h1] at h
      cases h
    | some prod =>
      rw [h1] at h
      simp only [Option.some_bind] at h
      cases h2 : checked64 (t0.add + prod) with
      | none =>
        rw [h2] at h
        cases h
      | some add =>
        rw [h2] at h
        simp only [Option.some_bind] at h
        cases h3 : checked64 (t0.mult * PRIME) with
        | none =>
          rw [h3] at h
          cases h
        | some mult =>
          rw [h3] at h
          simp only [Option.some_bind, Option.some.injEq] at h
          obtain ⟨e1, r1⟩ := checked64_eq_some h1
          obtain ⟨e2, r2⟩ := checked64_eq_some h2
          obtain ⟨e3, r3⟩ := checked64_eq_some h3
          rw [← h]
          unfold poly_hash_string_step
          rw [wrap64_of_isI64 r1, ← e1, wrap64_of_isI64 r2, wrap64_of_isI64 r3, ← e2, ← e3]

theorem poly_hash_string_strict_loop_sound (sgn : Bool) (s : List CByte) (k : Nat)
    (t : PolyHashState)
    (h : (List.range k).foldl (poly_hash_string_strict_step sgn s)
      (some { add := 0, mult := 1 }) = some t) :
    t = (List.range k).foldl (poly_hash_string_step sgn s) { add := 0, mult := 1 } := by
  induction k generalizing t with
  | zero =>
    simp only [List.range_zero, List.foldl_nil, Option.some.injEq] at h
    simp [h]
  | succ k ih =>
    rw [List.range_succ, List.foldl_append] at h ⊢
    simp only [List.foldl_cons, List.foldl_nil] at h ⊢
    exact poly_hash_string_strict_step_sound sgn s _ _ k t (fun t0 ht0 => ih t0 ht0) h

/-- Where no signed operation overflows, `poly_hash_string` returns the wraparound
state. -/
theorem poly_hash_string_strict_sound (sgn : Bool) (s : List CByte) (t : PolyHashState)
    (h : poly_hash_string_strict sgn s = some t) : t = poly_hash_string sgn s :=
  poly_hash_string_strict_loop_sound sgn s s.length t h

/-- Where no signed operation overflows, `poly_hash_whole_string` returns the `add` field
reached from the `poly_init` state by `poly_add_string` in wraparound arithmetic. -/
theorem poly_hash_whole_string_sound (sgn : Bool) (s : List CByte) (v : Int)
    (h : poly_hash_whole_string sgn s = some v) :
    v = (poly_add_string sgn poly_init s).add := by
  unfold poly_hash_whole_string poly_add_string_strict at h
  cases h1 : poly_hash_string_strict sgn s with
  | none => simp [h1] at h
  | some right =>
    rw [h1] at h
    simp only [Option.some_bind] at h
    cases h2 : poly_apply_hash_strict { add := wrap64 14695981039346656037, mult := 1 } right with
    | none => simp [h2] at h
    | some t =>
      rw [h2] at h
      simp only [Option.map_some', Option.some.injEq] at h
      have e1 := poly_hash_string_strict_sound sgn s right h1
      have e2 := poly_apply_hash_strict_sound _ _ t h2
      rw [← h, e2, e1]
      rfl

theorem charVal_bounds (sgn : Bool) (b : CByte) : -128 ≤ charVal sgn b ∧ charVal sgn b ≤ 255 := by
  have hb := b.isLt
  cases sgn <;> by_cases h : 128 ≤ b.val <;> simp only [charVal, h, Bool.false_and,
    Bool.true_and, decide_True, decide_False, if_true, if_false, Bool.false_eq_true] <;> omega

theorem poly_hash_string_strict_step_none (sgn : Bool) (s : List CByte) (i : Nat) :
    poly_hash_string_strict_step sgn s none i = none := rfl

theorem poly_hash_string_strict_foldl_none (sgn : Bool) (s : List CByte) (l : List Nat) :
    l.foldl (poly_hash_string_strict_step sgn s) none = none := by
  induction l with
  | nil => rfl
  | cons i l ih => simpa only [List.foldl_cons, poly_hash_string_strict_step_none] using ih

/-- The first iteration of the loop never overflows: it leaves `add = s[n-1]` and
`mult = P`. -/
theorem poly_hash_string_strict_first (sgn : Bool) (s : List CByte) :
    poly_hash_string_strict_step sgn s (some { add := 0, mult := 1 }) 0 =
      some { add := charVal sgn (s.getD (s.length - 1 - 0) 0), mult := PRIME } := by
  have hc := charVal_bounds sgn (s.getD (s.length - 1 - 0) 0)
  unfold poly_hash_string_strict_step
  generalize charVal sgn (s.getD (s.length - 1 - 0) 0) = c at hc ⊢
  have h1 : IsI64 c := by
    unfold IsI64
    constructor <;> omega
  have h2 : IsI64 PRIME := by decide
  simp only [Option.some_bind, mul_one, zero_add, one_mul]
  rw [checked64_of_isI64 h1]
  simp only [Option.some_bind]
  rw [checked64_of_isI64 h1]
  simp only [Option.some_bind]
  rw [checked64_of_isI64 h2]
  rfl

/-- The second iteration of the loop always overflows in `result.mult *= PRIME`. -/
theorem poly_hash_string_strict_second (sgn : Bool) (s : List CByte) (c : Int)
    (hc : -128 ≤ c ∧ c ≤ 255) :
    poly_hash_string_strict_step sgn s (some { add := c, mult := PRIME }) 1 = none := by
  have hd := charVal_bounds sgn (s.getD (s.length - 1 - 1) 0)
  unfold poly_hash_string_strict_step
  generalize charVal sgn (s.getD (s.length - 1 - 1) 0) = d at hd ⊢
  have h1 : IsI64 (d * PRIME) := by
    unfold IsI64 PRIME
    constructor <;> omega
  have h2 : IsI64 (c + d * PRIME) := by
    unfold IsI64 PRIME
    constructor <;> omega
  have h3 : ¬ IsI64 (PRIME * PRIME) := by decide
  simp only [Option.some_bind]
  rw [checked64_of_isI64 h1]
  simp only [Option.some_bind]
  rw [checked64_of_isI64 h2]
  simp only [Option.some_bind]
  rw [checked64_of_not_isI64 h3]
  rfl

/-- For every non-empty byte sequence a signed operation of `poly_hash_whole_string`
overflows: for one byte the product of the seed and `mult = P`, for two bytes or more
already `result.mult *= PRIME` in the second iteration of the loop. -/
theorem poly_hash_whole_string_nonempty (sgn : Bool) (s : List CByte) (hs : s ≠ []) :
    poly_hash_whole_string sgn s = none := by
  unfold poly_hash_whole_string poly_add_string_strict
  match s, hs with
  | [b], _ =>
    have h1 : poly_hash_string_strict sgn [b] =
        some { add := charVal sgn ([b].getD ([b].length - 1 - 0) 0), mult := PRIME } := by
      unfold poly_hash_string_strict
      simp only [List.length_singleton, List.range_succ, List.range_zero, List.nil_append,
        List.foldl_cons, List.foldl_nil]
      exact poly_hash_string_strict_first sgn [b]
    rw [h1]
    have h2 : ¬ IsI64 (wrap64 14695981039346656037 * PRIME) := by decide
    simp only [Option.some_bind, poly_apply_hash_strict]
    rw [checked64_of_not_isI64 h2]
    rfl
  | b1 :: b2 :: rest, _ =>
    have h1 : poly_hash_string_strict sgn (b1 :: b2 :: rest) = none := by
      unfold poly_hash_string_strict
      have hlen : (b1 :: b2 :: rest).length = 2 + rest.length := by
        simp only [List.length_cons]
        omega
      rw [hlen, List.range_add, List.foldl_append]
      have h2 : (List.range 2).foldl (poly_hash_string_strict_step sgn (b1 :: b2 :: rest))
          (some { add := 0, mult := 1 }) = none := by
        simp only [List.range_succ, List.range_zero, List.nil_append, List.cons_append,
          List.foldl_cons, List.foldl_nil]
        rw [poly_hash_string_strict_first]
        exact poly_hash_string_strict_second sgn _ _ (charVal_bounds sgn _)
      rw [h2]
      exact poly_hash_string_strict_foldl_none sgn _ _
    rw [h1]
    rfl

/-- Repeated feeding in 64-bit wraparound arithmetic: feeding `A` and then `B`
to any state with `poly_add_string` leaves the same `add` and `mult` as feeding `A ++ B`
once; whenever `poly_hash_whole_string (A ++ B)` is free of signed overflow its value is
the `add` field reached from the `poly_init` state by feeding `A` and then `B`; and the
state `(add = 0, mult = 1)` returned for the empty sequence is a left and right identity of
`poly_apply_hash` on states of 64-bit values. -/
theorem poly_add_string_append :
    (∀ (sgn : Bool) (state : PolyHashState) (A B : List CByte),
      poly_add_string sgn (poly_add_string sgn state A) B =
        poly_add_string sgn state (A ++ B)) ∧
    (∀ (sgn : Bool) (A B : List CByte) (v : Int),
      poly_hash_whole_string sgn (A ++ B) = some v →
        v = (poly_add_string sgn (poly_add_string sgn poly_init A) B).add) ∧
    (toU64 poly_init.add = 14695981039346656037 ∧ poly_init.mult = 1) ∧
    (∀ sgn : Bool, poly_hash_string sgn [] = { add := 0, mult := 1 }) ∧
    (∀ state : PolyHashState, IsI64 state.add → IsI64 state.mult →
      poly_apply_hash state { add := 0, mult := 1 } = state ∧
      poly_apply_hash { add := 0, mult := 1 } state = state) := by
  have key : ∀ (sgn : Bool) (state : PolyHashState) (A B : List CByte),
      poly_add_string sgn (poly_add_string sgn state A) B =
        poly_add_string sgn state (A ++ B) := by
    intro sgn state A B
    unfold poly_add_string
    simp only [poly_apply_hash_eq, poly_hash_string_eq, polySum_append, List.length_append]
    congr 1
    · apply wrap64_congr
      simp only [wrap64_cast, Int.cast_add, Int.cast_mul, Int.cast_pow, Int.cast_sum]
      ring
    · apply wrap64_congr
      simp only [wrap64_cast, Int.cast_add, Int.cast_mul, Int.cast_pow, Int.cast_sum]
      ring
  refine ⟨key, ?_, ⟨by decide, rfl⟩, fun _ => rfl, ?_⟩
  · intro sgn A B v hv
    rw [key]
    exact poly_hash_whole_string_sound sgn (A ++ B) v hv
  · intro state hadd hmult
    cases state with
    | mk add mult =>
      simp only [poly_apply_hash_eq]
      constructor
      · congr 1
        · simp only [mul_one, add_zero]
          exact wrap64_of_isI64 hadd
        · simp only [mul_one]
          exact wrap64_of_isI64 hmult
      · congr 1
        · simp only [zero_mul, zero_add]
          exact wrap64_of_isI64 hadd
        · simp only [one_mul]
          exact wrap64_of_isI64 hmult

/-- The hash of "hi" is unchanged by composition with the state of the empty sequence on
either side. -/
theorem poly_add_string_append_witness :
    IsI64 (poly_hash_string true [104, 105]).add ∧
    IsI64 (poly_hash_string true [104, 105]).mult ∧
    poly_apply_hash (poly_hash_string true [104, 105]) { add := 0, mult := 1 } =
      poly_hash_string true [104, 105] ∧
    poly_apply_hash { add := 0, mult := 1 } (poly_hash_string true [104, 105]) =
      poly_hash_string true [104, 105] :=
  ⟨by decide, by decide,
    poly_add_string_append.2.2.2.2 (poly_hash_string true [104, 105]) (by decide) (by decide)⟩

end Neat
